import Mathlib

/-!
Verification of the fmh-url library (src/lib.rs).

The library converts between standard URLs and a flattened "FMH-URL"
representation with five slash-delimited positional segments
`host/scheme/port/userinfo/rest`.  Strings are embedded as `List Char`
(a Rust `&str` is a sequence of characters for the purposes of this
code, which only ever splits on and appends ASCII delimiters).

The external `url` crate is out of scope of the repository; the parts of
its behaviour that the library relies on (the parsed-URL data model, the
default-port table, and the final re-parse inside `revert`) are modelled
from the specification's external-collaborator contract and marked
`Modelled from the spec:` below.
-/

namespace Fmh

/-! ## Generic character-list utilities (split / join / bounded split) -/

/-- Split a character list at the first occurrence of `sep`:
`some (before, after)` when `sep` occurs, `none` otherwise. -/
def breakOn (sep : Char) : List Char → Option (List Char × List Char)
  | [] => none
  | c :: cs =>
    if c = sep then some ([], cs)
    else
      match breakOn sep cs with
      | none => none
      | some (a, b) => some (c :: a, b)

/-- Split on every occurrence of `sep`, keeping empty pieces
(the semantics of Rust's `str::split(char)`). -/
def splitOnChar (sep : Char) : List Char → List (List Char)
  | [] => [[]]
  | c :: cs =>
    match splitOnChar sep cs with
    | [] => [[c]]
    | p :: ps => if c = sep then [] :: p :: ps else (c :: p) :: ps

/-- Join pieces with `sep` (the semantics of Rust's `[&str]::join`). -/
def joinChar (sep : Char) : List (List Char) → List Char
  | [] => []
  | [p] => p
  | p :: ps => p ++ sep :: joinChar sep ps

/-- Bounded split: at most `n` pieces, splitting only at the first `n - 1`
occurrences of `sep`; the last piece keeps any remaining separators
(the semantics of Rust's `str::splitn(n, char)`). -/
def splitnChars (sep : Char) : Nat → List Char → List (List Char)
  | 0, _ => []
  | 1, l => [l]
  | n+2, l =>
    match breakOn sep l with
    | none => [l]
    | some (a, b) => a :: splitnChars sep (n+1) b

/-- Longest prefix on which `p` is false, paired with the remainder. -/
def spanNot (p : Char → Bool) : List Char → List Char × List Char
  | [] => ([], [])
  | c :: cs =>
    if p c then ([], c :: cs)
    else
      let (a, b) := spanNot p cs
      (c :: a, b)

/-! ## Decimal and hexadecimal rendering / reading -/

/-- Fuel-driven helper for `natDigits` (structural recursion keeps the
definition computable by the kernel). -/
def natDigitsF : Nat → Nat → List Char
  | 0, _ => []
  | fuel+1, n =>
    if n < 10 then [Nat.digitChar n]
    else natDigitsF fuel (n / 10) ++ [Nat.digitChar (n % 10)]

/-- Decimal digits of `n`, most significant first (Rust `Display` for
unsigned integers). -/
def natDigits (n : Nat) : List Char :=
  natDigitsF (n + 1) n

/-- Fuel-driven helper for `hexDigits`. -/
def hexDigitsF : Nat → Nat → List Char
  | 0, _ => []
  | fuel+1, n =>
    if n < 16 then [Nat.digitChar n]
    else hexDigitsF fuel (n / 16) ++ [Nat.digitChar (n % 16)]

/-- Lowercase hexadecimal digits of `n`, most significant first
(Rust `LowerHex`). -/
def hexDigits (n : Nat) : List Char :=
  hexDigitsF (n + 1) n

/-- Left-pad with `'0'` to width 4 (Rust format specifier `{:04x}`). -/
def padLeft4 (l : List Char) : List Char :=
  List.replicate (4 - l.length) '0' ++ l

/-- Numeric value of a decimal digit string. -/
def digitsVal (l : List Char) : Nat :=
  l.foldl (fun a c => 10 * a + (c.toNat - 48)) 0

/-- Numeric value of a lowercase-hex digit string. -/
def hexVal (c : Char) : Nat :=
  if c.isDigit then c.toNat - 48 else c.toNat - 87

/-- Whether `c` is a lowercase hexadecimal digit. -/
def isLowerHex (c : Char) : Bool :=
  c.isDigit || ('a' ≤ c && c ≤ 'f')

/-- Numeric value of a hex digit string. -/
def hexsVal (l : List Char) : Nat :=
  l.foldl (fun a c => 16 * a + hexVal c) 0

/-- Reversal of dot-separated labels:
`domain.split('.').rev().collect::<Vec<_>>().join(".")` in src/lib.rs. -/
def reverseLabels (l : List Char) : List Char :=
  joinChar '.' ((splitOnChar '.' l).reverse)

/-! ## Data model

`Host` and `ParsedUrl` mirror the components exposed by the external
parser as described in the specification's data model: scheme, optional
host classified into Domain / IPv4 / IPv6, optional (non-default) port,
username, optional password, path, optional query, optional fragment. -/

/-- Modelled from the spec: the external parser's host classification
into Domain, IPv4 (four bytes) and IPv6 (eight 16-bit segments). -/
inductive Host where
  | Domain (d : List Char)
  | Ipv4 (a b c d : Nat)
  | Ipv6 (s0 s1 s2 s3 s4 s5 s6 s7 : Nat)
deriving DecidableEq

/-- Modelled from the spec: the component view of a URL exposed by the
external parser.  `port` is the explicit port when it differs from the
scheme default (the external parser normalizes a default port away). -/
structure ParsedUrl where
  scheme : List Char
  host : Option Host
  port : Option Nat
  username : List Char
  password : Option (List Char)
  path : List Char
  query : Option (List Char)
  fragment : Option (List Char)
deriving DecidableEq

/-- The error enum of src/lib.rs: `InvalidFmhUrl` carries the offending
input string. -/
inductive Error where
  | InvalidFmhUrl (s : List Char)
deriving DecidableEq

/-- Modelled from the spec: the external parser's scheme-to-default-port
table (http 80, https 443, ws 80, wss 443, ftp 21). -/
def defaultPort (scheme : List Char) : Option Nat :=
  if scheme = "http".data then some 80
  else if scheme = "https".data then some 443
  else if scheme = "ws".data then some 80
  else if scheme = "wss".data then some 443
  else if scheme = "ftp".data then some 21
  else none

/-- Modelled from the spec: `Url::port_or_known_default` — the explicit
port if present, else the scheme's conventional default. -/
def portOrKnownDefault (u : ParsedUrl) : Option Nat :=
  match u.port with
  | some p => some p
  | none => defaultPort u.scheme

/-! ## The library itself (translated from src/lib.rs) -/

/-- Rendering of an IPv4 address, dotted decimal
(`std::net::Ipv4Addr`'s `Display`). -/
def renderIpv4 (a b c d : Nat) : List Char :=
  natDigits a ++ '.' :: natDigits b ++ '.' :: natDigits c ++ '.' :: natDigits d

/-- The `expand_ipv6` function of src/lib.rs: each of the eight segments
rendered with `{:04x}`, colon-separated. -/
def expandIpv6 (s0 s1 s2 s3 s4 s5 s6 s7 : Nat) : List Char :=
  padLeft4 (hexDigits s0) ++ ':' :: padLeft4 (hexDigits s1) ++ ':'
    :: padLeft4 (hexDigits s2) ++ ':' :: padLeft4 (hexDigits s3) ++ ':'
    :: padLeft4 (hexDigits s4) ++ ':' :: padLeft4 (hexDigits s5) ++ ':'
    :: padLeft4 (hexDigits s6) ++ ':' :: padLeft4 (hexDigits s7)

/-- The `convert_host` function of src/lib.rs. -/
def convertHost : Host → List Char
  | .Domain d => reverseLabels d
  | .Ipv4 a b c d => renderIpv4 a b c d
  | .Ipv6 s0 s1 s2 s3 s4 s5 s6 s7 =>
      '[' :: expandIpv6 s0 s1 s2 s3 s4 s5 s6 s7 ++ [']']

/-- The userinfo segment built by the `match (url.username(), url.password())`
block of `convert` in src/lib.rs. -/
def userinfoStr (username : List Char) (password : Option (List Char)) : List Char :=
  match username, password with
  | [], none => []
  | username, some p => username ++ ':' :: p
  | username, none => username

/-- The `convert` function of src/lib.rs. -/
def convert (u : ParsedUrl) : List Char :=
  (match u.host with | some h => convertHost h | none => [])
    ++ '/' :: u.scheme
    ++ '/' :: (match portOrKnownDefault u with | some p => natDigits p | none => [])
    ++ '/' :: userinfoStr u.username u.password
    ++ '/' :: u.path
    ++ (match u.query with | some q => '?' :: q | none => [])
    ++ (match u.fragment with | some f => '#' :: f | none => [])

/-- Strict IPv4 octet parsing: decimal digits, no leading zero (except
"0" itself), value at most 255 (`std::net::Ipv4Addr`'s `FromStr`). -/
def parseOctet (l : List Char) : Option Nat :=
  if l ≠ [] ∧ l.all Char.isDigit ∧ (l.head? = some '0' → l = ['0']) then
    if digitsVal l ≤ 255 then some (digitsVal l) else none
  else none

/-- Strict IPv4 address parsing: exactly four dot-separated octets
(`std::net::Ipv4Addr`'s `FromStr`). -/
def parseIpv4 (l : List Char) : Option (Nat × Nat × Nat × Nat) :=
  match splitOnChar '.' l with
  | [a, b, c, d] => do
      let x ← parseOctet a
      let y ← parseOctet b
      let z ← parseOctet c
      let w ← parseOctet d
      pure (x, y, z, w)
  | _ => none

/-- The `revert_host` function of src/lib.rs.  The IPv4 branch re-renders
the parsed address, exactly as `ipv4.to_string()` does. -/
def revertHost (host : List Char) : Except Error (List Char) :=
  if host.head? = some '[' ∧ host.getLast? = some ']' then
    .ok host
  else
    match parseIpv4 host with
    | some (a, b, c, d) => .ok (renderIpv4 a b c d)
    | none => .ok (reverseLabels host)

/-- The body of `revert` in src/lib.rs once the five segments are in
hand (lines 73-91 of the source): the URL-string reconstruction. -/
def revertCore (host scheme port username_password path : List Char) :
    Except Error (List Char) :=
  let url0 := scheme ++ [':']
  -- has authority
  let url1 :=
    if host ≠ [] ∨ port ≠ [] ∨ username_password ≠ [] then
      url0 ++ ['/', '/']
    else url0
  let url2 :=
    if username_password ≠ [] then url1 ++ username_password ++ ['@'] else url1
  match revertHost host with
  | .error e => .error e
  | .ok h =>
    let url3 := url2 ++ h
    let url4 := if port ≠ [] then url3 ++ ':' :: port else url3
    .ok (url4 ++ path)

/-- The reconstruction part of the `revert` function of src/lib.rs:
everything up to (but not including) the final `Url::parse`. -/
def revertString (fmh_url : List Char) : Except Error (List Char) :=
  match splitnChars '/' 5 fmh_url with
  | [host, scheme, port, username_password, path] =>
      revertCore host scheme port username_password path
  | _ => .error (.InvalidFmhUrl fmh_url)

/-! ## Model of the external parser (the final `Url::parse` in `revert`) -/

/-- Whether a character terminates the authority section. -/
def isAuthEnd (c : Char) : Bool :=
  c == '/' || c == '?' || c == '#'

/-- Value of a 4-lowercase-hex-digit group, if the group has that shape. -/
def hex4 (l : List Char) : Option Nat :=
  if l.length = 4 ∧ l.all isLowerHex then some (hexsVal l) else none

/-- Modelled from the spec: parsing of the bracketed canonical IPv6 form
(eight colon-separated groups of four lowercase hex digits). -/
def parseExpIpv6 (l : List Char) : Option Host :=
  match splitOnChar ':' l with
  | [g0, g1, g2, g3, g4, g5, g6, g7] => do
      let n0 ← hex4 g0
      let n1 ← hex4 g1
      let n2 ← hex4 g2
      let n3 ← hex4 g3
      let n4 ← hex4 g4
      let n5 ← hex4 g5
      let n6 ← hex4 g6
      let n7 ← hex4 g7
      pure (.Ipv6 n0 n1 n2 n3 n4 n5 n6 n7)
  | _ => none

/-- Modelled from the spec: host-and-port parsing inside an authority —
a bracketed IPv6 literal or a host split from an optional `:port`, with
the host classified as IPv4 when it parses as one, else as a domain. -/
def parseHostPort (hp : List Char) : Option (Host × Option (List Char)) :=
  if hp.take 1 = ['['] then
    match breakOn ']' (hp.drop 1) with
    | none => none
    | some (inner, after) =>
      match parseExpIpv6 inner with
      | none => none
      | some h =>
        if after = [] then some (h, none)
        else if after.take 1 = [':'] then some (h, some (after.drop 1))
        else none
  else
    let (hostStr, port?) :=
      match breakOn ':' hp with
      | some (h, p) => (h, some p)
      | none => (hp, none)
    if hostStr = [] then none
    else
      match parseIpv4 hostStr with
      | some (a, b, c, d) => some (.Ipv4 a b c d, port?)
      | none => some (.Domain hostStr, port?)

/-- Split off the fragment at the first `#`. -/
def splitFrag (l : List Char) : List Char × Option (List Char) :=
  match breakOn '#' l with
  | some (a, f) => (a, some f)
  | none => (l, none)

/-- Split off the query at the first `?`. -/
def splitQuery (l : List Char) : List Char × Option (List Char) :=
  match breakOn '?' l with
  | some (a, q) => (a, some q)
  | none => (l, none)

/-- Assemble a parsed URL from its components plus the raw
path-query-fragment tail. -/
def finishUrl (scheme : List Char) (host : Option Host) (port : Option Nat)
    (username : List Char) (password : Option (List Char))
    (tail : List Char) : Option ParsedUrl :=
  let (pq, frag) := splitFrag tail
  let (path, query) := splitQuery pq
  some ⟨scheme, host, port, username, password, path, query, frag⟩

/-- Host, port and final assembly once the credentials are known. -/
def parseWithCreds (scheme username : List Char) (password : Option (List Char))
    (hostport tail : List Char) : Option ParsedUrl :=
  match parseHostPort hostport with
  | none => none
  | some (host, portDigits?) =>
    match portDigits? with
    | none => finishUrl scheme (some host) none username password tail
    | some ds =>
      if ds ≠ [] ∧ ds.all Char.isDigit then
        finishUrl scheme (some host)
          (if defaultPort scheme = some (digitsVal ds) then none
           else some (digitsVal ds))
          username password tail
      else none

/-- Authority parsing: split the userinfo off at the first `@`, the
password off at the first `:` inside it. -/
def parseAuthority (scheme auth tail : List Char) : Option ParsedUrl :=
  match breakOn '@' auth with
  | none => parseWithCreds scheme [] none auth tail
  | some (ui, hp) =>
    match breakOn ':' ui with
    | some (n, p) => parseWithCreds scheme n (some p) hp tail
    | none => parseWithCreds scheme ui none hp tail

/-- The scheme-relative part of the modelled parse: everything after the
first colon. -/
def parseUrlCore (scheme rest : List Char) : Option ParsedUrl :=
  if scheme = [] then none
  else
    if rest.take 2 = ['/', '/'] then
      match spanNot isAuthEnd (rest.drop 2) with
      | (auth, tail) => parseAuthority scheme auth tail
    else finishUrl scheme none none [] none rest

/-- Modelled from the spec: the external URL parser, restricted to the
component grammar the specification describes — `scheme:` followed
either by an authority `//[userinfo@]host[:port]` and a tail, or by a
bare tail; the port is normalized away when it equals the scheme
default.  Returns `none` on strings outside this grammar (the abort
branch of `revert`). -/
def parseUrl (s : List Char) : Option ParsedUrl :=
  match breakOn ':' s with
  | none => none
  | some (scheme, rest) => parseUrlCore scheme rest

/-- The `revert` function of src/lib.rs.  The final `Url::parse(..).expect(..)`
of the source aborts the process when the reconstructed string fails to
parse; that branch is modelled as the `none` inside the `ok` result. -/
def revert (fmh_url : List Char) : Except Error (Option ParsedUrl) :=
  match revertString fmh_url with
  | .error e => .error e
  | .ok url => .ok (parseUrl url)

/-! ## Validity of a parsed URL -/

/-- Modelled from the spec: the shape of a host produced by the external
parser — a non-empty domain free of URL delimiter characters that is not
itself an IPv4 literal (the parser classifies those as `Ipv4`), IPv4
bytes, or 16-bit IPv6 segments. -/
def HostOk : Host → Prop
  | .Domain d =>
      d ≠ [] ∧ '/' ∉ d ∧ ':' ∉ d ∧ '@' ∉ d ∧ '?' ∉ d ∧ '#' ∉ d ∧
      '[' ∉ d ∧ ']' ∉ d ∧ parseIpv4 d = none
  | .Ipv4 a b c d => a ≤ 255 ∧ b ≤ 255 ∧ c ≤ 255 ∧ d ≤ 255
  | .Ipv6 s0 s1 s2 s3 s4 s5 s6 s7 =>
      s0 < 65536 ∧ s1 < 65536 ∧ s2 < 65536 ∧ s3 < 65536 ∧
      s4 < 65536 ∧ s5 < 65536 ∧ s6 < 65536 ∧ s7 < 65536

/-- Modelled from the spec: the invariants the external parser guarantees
for an accepted URL — a non-empty scheme, components already
percent-encoded (hence free of the URL delimiters that would be escaped),
the default port normalized away, credentials and ports only alongside a
host, a host whenever the scheme has a default port (those schemes are
host-requiring), and a path that cannot be mistaken for an authority. -/
def ValidUrl (u : ParsedUrl) : Prop :=
  u.scheme ≠ [] ∧
  (':' ∉ u.scheme ∧ '/' ∉ u.scheme ∧ '?' ∉ u.scheme ∧ '#' ∉ u.scheme) ∧
  ('@' ∉ u.username ∧ ':' ∉ u.username ∧ '/' ∉ u.username ∧
    '?' ∉ u.username ∧ '#' ∉ u.username) ∧
  (match u.password with
   | some p => '@' ∉ p ∧ ':' ∉ p ∧ '/' ∉ p ∧ '?' ∉ p ∧ '#' ∉ p
   | none => True) ∧
  (match u.port with
   | some p => defaultPort u.scheme ≠ some p
   | none => True) ∧
  ('?' ∉ u.path ∧ '#' ∉ u.path) ∧
  (match u.query with | some q => '#' ∉ q | none => True) ∧
  (match u.host with
   | some h => HostOk h ∧ (u.path = [] ∨ u.path.head? = some '/')
   | none =>
       u.username = [] ∧ u.password = none ∧ u.port = none ∧
       defaultPort u.scheme = none ∧ u.path.take 2 ≠ ['/', '/'])

/-! ## Lemmas: splitting and joining -/

theorem breakOn_eq_none {sep : Char} : ∀ {l : List Char}, breakOn sep l = none ↔ sep ∉ l
  | [] => by simp [breakOn]
  | c :: cs => by
    rw [breakOn]
    by_cases h : c = sep
    · subst h; simp
    · rw [if_neg h]
      rcases hb : breakOn sep cs with _ | ⟨a, b⟩
      · have hcs : sep ∉ cs := breakOn_eq_none.mp hb
        simp only [List.mem_cons, not_or]
        exact ⟨fun _ => ⟨fun hh => h hh.symm, hcs⟩, fun _ => by trivial⟩
      · have hcs : sep ∈ cs := by
          by_contra hmem
          rw [breakOn_eq_none.mpr hmem] at hb
          exact Option.noConfusion hb
        simp [List.mem_cons, hcs]

theorem breakOn_eq_some {sep : Char} :
    ∀ {l a b : List Char}, breakOn sep l = some (a, b) → l = a ++ sep :: b ∧ sep ∉ a
  | [], a, b => by simp [breakOn]
  | c :: cs, a, b => by
    rw [breakOn]
    by_cases h : c = sep
    · subst h
      intro hsome
      obtain ⟨rfl, rfl⟩ : a = [] ∧ b = cs := by
        simpa [eq_comm] using hsome
      simp
    · rw [if_neg h]
      rcases hb : breakOn sep cs with _ | ⟨a', b'⟩
      · intro hsome; exact Option.noConfusion hsome
      · intro hsome
        obtain ⟨he, rfl⟩ : c :: a' = a ∧ b' = b := by
          simpa [eq_comm] using hsome
        obtain ⟨hcs, hna⟩ := breakOn_eq_some hb
        subst he
        refine ⟨by simp [hcs], ?_⟩
        simp only [List.mem_cons, not_or]
        exact ⟨fun hh => h hh.symm, hna⟩

theorem breakOn_append {sep : Char} {a : List Char} (b : List Char) (h : sep ∉ a) :
    breakOn sep (a ++ sep :: b) = some (a, b) := by
  induction a with
  | nil => simp [breakOn]
  | cons c a' ih =>
    have hc : ¬ c = sep := fun hh => h (hh ▸ List.mem_cons_self c a')
    have ha' : sep ∉ a' := fun hm => h (List.mem_cons_of_mem _ hm)
    simp only [List.cons_append, breakOn, if_neg hc, List.append_eq, ih ha']

theorem splitOnChar_cons_eq {sep c : Char} {cs p : List Char} {ps : List (List Char)}
    (h : splitOnChar sep cs = p :: ps) :
    splitOnChar sep (c :: cs) = if c = sep then [] :: p :: ps else (c :: p) :: ps := by
  rw [splitOnChar, h]

theorem splitOnChar_ne_nil {sep : Char} : ∀ {l : List Char}, splitOnChar sep l ≠ []
  | [] => by simp [splitOnChar]
  | c :: cs => by
    rcases h : splitOnChar sep cs with _ | ⟨p, ps⟩
    · exact absurd h splitOnChar_ne_nil
    · rw [splitOnChar_cons_eq h]
      by_cases hc : c = sep <;> simp [hc]

theorem joinChar_cons_of_ne_nil {sep : Char} {ps : List (List Char)} (p : List Char)
    (h : ps ≠ []) : joinChar sep (p :: ps) = p ++ sep :: joinChar sep ps := by
  cases ps with
  | nil => exact absurd rfl h
  | cons q ps' => rfl

theorem joinChar_splitOnChar (sep : Char) : ∀ (l : List Char),
    joinChar sep (splitOnChar sep l) = l
  | [] => rfl
  | c :: cs => by
    rcases h : splitOnChar sep cs with _ | ⟨p, ps⟩
    · exact absurd h splitOnChar_ne_nil
    · have ih : joinChar sep (splitOnChar sep cs) = cs := joinChar_splitOnChar sep cs
      rw [h] at ih
      rw [splitOnChar_cons_eq h]
      by_cases hc : c = sep
      · subst hc
        rw [if_pos rfl, joinChar_cons_of_ne_nil _ (by simp), ih]
        rfl
      · rw [if_neg hc]
        cases ps with
        | nil =>
          simp only [joinChar] at ih ⊢
          rw [ih]
        | cons q ps' =>
          rw [joinChar_cons_of_ne_nil _ (by simp)] at ih
          rw [joinChar_cons_of_ne_nil _ (by simp), ← ih]
          simp

theorem not_mem_of_mem_splitOnChar {sep : Char} :
    ∀ {l p : List Char}, p ∈ splitOnChar sep l → sep ∉ p
  | [], p => by
    intro h
    simp only [splitOnChar, List.mem_singleton] at h
    subst h; simp
  | c :: cs, p => by
    rcases h : splitOnChar sep cs with _ | ⟨p', ps⟩
    · exact absurd h splitOnChar_ne_nil
    · rw [splitOnChar_cons_eq h]
      by_cases hc : c = sep
      · subst hc
        rw [if_pos rfl]
        intro hm
        rcases List.mem_cons.mp hm with rfl | hm'
        · simp
        · exact not_mem_of_mem_splitOnChar (h ▸ hm')
      · rw [if_neg hc]
        intro hm
        rcases List.mem_cons.mp hm with rfl | hm'
        · have hp' : sep ∉ p' :=
            not_mem_of_mem_splitOnChar (h ▸ List.mem_cons_self p' ps)
          simp only [List.mem_cons, not_or]
          exact ⟨fun hh => hc hh.symm, hp'⟩
        · exact not_mem_of_mem_splitOnChar (h ▸ List.mem_cons_of_mem p' hm')

theorem mem_of_mem_splitOnChar {sep : Char} :
    ∀ {l p : List Char}, p ∈ splitOnChar sep l → ∀ {c : Char}, c ∈ p → c ∈ l
  | [], p => by
    intro h
    simp only [splitOnChar, List.mem_singleton] at h
    subst h; simp
  | c0 :: cs, p => by
    rcases h : splitOnChar sep cs with _ | ⟨p', ps⟩
    · exact absurd h splitOnChar_ne_nil
    · rw [splitOnChar_cons_eq h]
      by_cases hc : c0 = sep
      · subst hc
        rw [if_pos rfl]
        intro hm c hcp
        rcases List.mem_cons.mp hm with rfl | hm'
        · simp at hcp
        · exact List.mem_cons_of_mem _ (mem_of_mem_splitOnChar (h ▸ hm') hcp)
      · rw [if_neg hc]
        intro hm c hcp
        rcases List.mem_cons.mp hm with rfl | hm'
        · rcases List.mem_cons.mp hcp with rfl | hcp'
          · exact List.mem_cons_self _ _
          · exact List.mem_cons_of_mem _
              (mem_of_mem_splitOnChar (h ▸ List.mem_cons_self p' ps) hcp')
        · exact List.mem_cons_of_mem _ (mem_of_mem_splitOnChar (h ▸ List.mem_cons_of_mem p' hm') hcp)

theorem splitOnChar_of_not_mem {sep : Char} : ∀ {l : List Char}, sep ∉ l → splitOnChar sep l = [l]
  | [] => by simp [splitOnChar]
  | c :: cs => by
    intro h
    have hc : ¬ c = sep := fun hh => h (hh ▸ List.mem_cons_self c cs)
    have hcs : sep ∉ cs := fun hm => h (List.mem_cons_of_mem _ hm)
    rw [splitOnChar_cons_eq (splitOnChar_of_not_mem hcs), if_neg hc]

theorem splitOnChar_append {sep : Char} {a : List Char} (b : List Char) (h : sep ∉ a) :
    splitOnChar sep (a ++ sep :: b) = a :: splitOnChar sep b := by
  induction a with
  | nil =>
    rcases hb : splitOnChar sep b with _ | ⟨p, ps⟩
    · exact absurd hb splitOnChar_ne_nil
    · rw [List.nil_append, splitOnChar_cons_eq hb, if_pos rfl]
  | cons c a' ih =>
    have hc : ¬ c = sep := fun hh => h (hh ▸ List.mem_cons_self c a')
    have ha' : sep ∉ a' := fun hm => h (List.mem_cons_of_mem _ hm)
    rcases hb : splitOnChar sep (a' ++ sep :: b) with _ | ⟨p, ps⟩
    · exact absurd hb splitOnChar_ne_nil
    · rw [List.cons_append, splitOnChar_cons_eq hb, if_neg hc]
      rw [ih ha'] at hb
      injection hb with h1 h2
      subst h1; subst h2
      rfl

theorem splitOnChar_joinChar {sep : Char} :
    ∀ {L : List (List Char)}, L ≠ [] → (∀ p ∈ L, sep ∉ p) →
      splitOnChar sep (joinChar sep L) = L
  | [], h, _ => absurd rfl h
  | [p], _, hall => by
    simp only [joinChar]
    exact splitOnChar_of_not_mem (hall p (List.mem_singleton.mpr rfl))
  | p :: q :: L', _, hall => by
    rw [joinChar_cons_of_ne_nil _ (by simp),
      splitOnChar_append _ (hall p (List.mem_cons_self _ _)),
      splitOnChar_joinChar (by simp) (fun r hr => hall r (List.mem_cons_of_mem _ hr))]

theorem mem_joinChar {sep : Char} :
    ∀ {L : List (List Char)} {c : Char}, c ∈ joinChar sep L → c = sep ∨ ∃ p ∈ L, c ∈ p
  | [], c => by simp [joinChar]
  | [p], c => by
    simp only [joinChar, List.mem_singleton]
    intro h; exact Or.inr ⟨p, rfl, h⟩
  | p :: q :: L', c => by
    rw [joinChar_cons_of_ne_nil _ (by simp)]
    intro h
    rcases List.mem_append.mp h with hp | ht
    · exact Or.inr ⟨p, List.mem_cons_self _ _, hp⟩
    · rcases List.mem_cons.mp ht with rfl | hj
      · exact Or.inl rfl
      · rcases mem_joinChar hj with rfl | ⟨r, hr, hcr⟩
        · exact Or.inl rfl
        · exact Or.inr ⟨r, List.mem_cons_of_mem _ hr, hcr⟩

theorem reverseLabels_reverseLabels (l : List Char) :
    reverseLabels (reverseLabels l) = l := by
  unfold reverseLabels
  rw [splitOnChar_joinChar (by simp [splitOnChar_ne_nil])
      (fun p hp => not_mem_of_mem_splitOnChar (List.mem_reverse.mp hp)),
    List.reverse_reverse, joinChar_splitOnChar]

theorem reverseLabels_eq_nil {l : List Char} : reverseLabels l = [] ↔ l = [] := by
  constructor
  · intro h
    have := reverseLabels_reverseLabels l
    rw [h] at this
    simpa [reverseLabels, splitOnChar, joinChar] using this.symm
  · rintro rfl; rfl

theorem mem_reverseLabels {l : List Char} {c : Char} (h : c ∈ reverseLabels l) :
    c = '.' ∨ c ∈ l := by
  rcases mem_joinChar h with rfl | ⟨p, hp, hcp⟩
  · exact Or.inl rfl
  · exact Or.inr (mem_of_mem_splitOnChar (List.mem_reverse.mp hp) hcp)

theorem splitnChars_five {sep : Char} {a1 a2 a3 a4 : List Char} (rest : List Char)
    (h1 : sep ∉ a1) (h2 : sep ∉ a2) (h3 : sep ∉ a3) (h4 : sep ∉ a4) :
    splitnChars sep 5 (a1 ++ sep :: (a2 ++ sep :: (a3 ++ sep :: (a4 ++ sep :: rest)))) =
      [a1, a2, a3, a4, rest] := by
  simp [splitnChars, breakOn_append _ h1, breakOn_append _ h2,
    breakOn_append _ h3, breakOn_append _ h4]

theorem length_splitnChars {sep : Char} :
    ∀ (n : Nat) (l : List Char),
      (splitnChars sep (n+1) l).length = min (n+1) (l.count sep + 1)
  | 0, l => by simp [splitnChars]
  | n+1, l => by
    rw [splitnChars]
    rcases hb : breakOn sep l with _ | ⟨a, b⟩
    · have : l.count sep = 0 := List.count_eq_zero.mpr (breakOn_eq_none.mp hb)
      simp [this]
    · obtain ⟨rfl, hna⟩ := breakOn_eq_some hb
      have ha : a.count sep = 0 := List.count_eq_zero.mpr hna
      have ih := @length_splitnChars sep n b
      simp only [List.length_cons, ih, List.count_append, List.count_cons, ha]
      simp only [beq_self_eq_true, if_true]
      omega

/-! ## Lemmas: decimal and hexadecimal digits -/

theorem natDigitsF_congr : ∀ {n : Nat}, ∀ (f1 f2 : Nat), n < f1 → n < f2 →
    natDigitsF f1 n = natDigitsF f2 n := by
  intro n
  induction n using Nat.strong_induction_on with
  | _ n ih =>
    intro f1 f2 h1 h2
    match f1, f2 with
    | g1+1, g2+1 =>
      rw [natDigitsF, natDigitsF]
      by_cases h10 : n < 10
      · rw [if_pos h10, if_pos h10]
      · rw [if_neg h10, if_neg h10,
          ih (n / 10) (Nat.div_lt_self (by omega) (by omega)) g1 g2 (by omega) (by omega)]

theorem natDigits_eq (n : Nat) :
    natDigits n =
      if n < 10 then [Nat.digitChar n]
      else natDigits (n / 10) ++ [Nat.digitChar (n % 10)] := by
  show natDigitsF (n + 1) n = _
  rw [natDigitsF]
  by_cases h10 : n < 10
  · rw [if_pos h10, if_pos h10]
  · rw [if_neg h10, if_neg h10]
    have hlt : n / 10 < n := Nat.div_lt_self (by omega) (by omega)
    rw [natDigitsF_congr n (n / 10 + 1) (by omega) (by omega)]
    exact rfl

theorem hexDigitsF_congr : ∀ {n : Nat}, ∀ (f1 f2 : Nat), n < f1 → n < f2 →
    hexDigitsF f1 n = hexDigitsF f2 n := by
  intro n
  induction n using Nat.strong_induction_on with
  | _ n ih =>
    intro f1 f2 h1 h2
    match f1, f2 with
    | g1+1, g2+1 =>
      rw [hexDigitsF, hexDigitsF]
      by_cases h16 : n < 16
      · rw [if_pos h16, if_pos h16]
      · rw [if_neg h16, if_neg h16,
          ih (n / 16) (Nat.div_lt_self (by omega) (by omega)) g1 g2 (by omega) (by omega)]

theorem hexDigits_eq (n : Nat) :
    hexDigits n =
      if n < 16 then [Nat.digitChar n]
      else hexDigits (n / 16) ++ [Nat.digitChar (n % 16)] := by
  show hexDigitsF (n + 1) n = _
  rw [hexDigitsF]
  by_cases h16 : n < 16
  · rw [if_pos h16, if_pos h16]
  · rw [if_neg h16, if_neg h16]
    have hlt : n / 16 < n := Nat.div_lt_self (by omega) (by omega)
    rw [hexDigitsF_congr n (n / 16 + 1) (by omega) (by omega)]
    exact rfl

theorem digitChar_isDigit {m : Nat} (h : m < 10) : (Nat.digitChar m).isDigit = true := by
  interval_cases m <;> decide

theorem digitChar_toNat {m : Nat} (h : m < 10) : (Nat.digitChar m).toNat = 48 + m := by
  interval_cases m <;> decide

theorem natDigits_ne_nil {n : Nat} : natDigits n ≠ [] := by
  rw [natDigits_eq]
  split <;> simp

theorem mem_natDigits_isDigit : ∀ {n : Nat} {c : Char}, c ∈ natDigits n → c.isDigit = true := by
  intro n
  induction n using Nat.strong_induction_on with
  | _ n ih =>
    intro c hc
    rw [natDigits_eq] at hc
    split at hc
    · rename_i h
      simp only [List.mem_singleton] at hc
      subst hc; exact digitChar_isDigit h
    · rename_i h
      rcases List.mem_append.mp hc with h1 | h2
      · exact ih (n / 10) (Nat.div_lt_self (by omega) (by omega)) h1
      · simp only [List.mem_singleton] at h2
        subst h2; exact digitChar_isDigit (Nat.mod_lt _ (by omega))

theorem not_mem_natDigits {c : Char} (h : c.isDigit = false) {n : Nat} : c ∉ natDigits n :=
  fun hm => by rw [mem_natDigits_isDigit hm] at h; exact Bool.noConfusion h

theorem digitsVal_append (l : List Char) (c : Char) :
    digitsVal (l ++ [c]) = 10 * digitsVal l + (c.toNat - 48) := by
  simp [digitsVal, List.foldl_append]

theorem digitsVal_natDigits (n : Nat) : digitsVal (natDigits n) = n := by
  induction n using Nat.strong_induction_on with
  | _ n ih =>
    rw [natDigits_eq]
    split
    · rename_i h
      simp only [digitsVal, List.foldl]
      rw [digitChar_toNat h]
      omega
    · rename_i h
      rw [digitsVal_append, ih (n / 10) (Nat.div_lt_self (by omega) (by omega)),
        digitChar_toNat (Nat.mod_lt _ (by omega))]
      omega

theorem natDigits_head_ne_zero : ∀ {n : Nat}, n ≠ 0 → (natDigits n).head? ≠ some '0' := by
  intro n
  induction n using Nat.strong_induction_on with
  | _ n ih =>
    intro h
    rw [natDigits_eq]
    split
    · rename_i h10
      intro hc
      simp only [List.head?] at hc
      interval_cases n
      · exact h rfl
      all_goals exact absurd hc (by decide)
    · rename_i h10
      obtain ⟨d, ds, hd⟩ := List.exists_cons_of_ne_nil (@natDigits_ne_nil (n / 10))
      have hne := ih (n / 10) (Nat.div_lt_self (by omega) (by omega)) (by omega)
      rw [hd] at hne ⊢
      simpa using hne

theorem foldl_digits_ge_one :
    ∀ (l : List Char) (a : Nat), 1 ≤ a → 1 ≤ l.foldl (fun a c => 10 * a + (c.toNat - 48)) a
  | [], _, h => h
  | c :: cs, a, h => foldl_digits_ge_one cs (10 * a + (c.toNat - 48)) (by omega)

theorem isDigit_toNat {c : Char} (h : c.isDigit = true) : 48 ≤ c.toNat ∧ c.toNat ≤ 57 := by
  simp only [Char.isDigit, Bool.and_eq_true, decide_eq_true_eq] at h
  obtain ⟨h1, h2⟩ := h
  exact ⟨h1, h2⟩

theorem char_eq_of_toNat {c : Char} {n : Nat} (h : c.toNat = n) : c = Char.ofNat n := by
  rw [← h, Char.ofNat_toNat]

theorem digitChar_inv {c : Char} (h : c.isDigit = true) :
    Nat.digitChar (c.toNat - 48) = c := by
  obtain ⟨h1, h2⟩ := isDigit_toNat h
  have hk : c.toNat - 48 < 10 := by omega
  have : c = Char.ofNat (48 + (c.toNat - 48)) := char_eq_of_toNat (by omega)
  rw [this]
  set k := c.toNat - 48 with hkdef
  clear_value k
  interval_cases k <;> decide

theorem digitsVal_pos {l : List Char} (hne : l ≠ []) (hz : l.head? ≠ some '0')
    (hdig : ∀ c ∈ l, c.isDigit = true) : 1 ≤ digitsVal l := by
  cases l with
  | nil => exact absurd rfl hne
  | cons c cs =>
    have hc : c.isDigit = true := hdig c (List.mem_cons_self _ _)
    obtain ⟨h1, h2⟩ := isDigit_toNat hc
    have hcz : c ≠ '0' := fun hh => hz (by rw [hh]; rfl)
    have : c.toNat ≠ 48 := by
      intro hh
      exact hcz ((char_eq_of_toNat hh).trans (by decide))
    show 1 ≤ List.foldl _ (10 * 0 + (c.toNat - 48)) cs
    exact foldl_digits_ge_one cs _ (by omega)

theorem natDigits_digitsVal : ∀ {l : List Char}, l ≠ [] → (∀ c ∈ l, c.isDigit = true) →
    (l.head? = some '0' → l = ['0']) → natDigits (digitsVal l) = l := by
  intro l
  induction l using List.reverseRecOn with
  | nil => intro h; exact absurd rfl h
  | append_singleton l c ihl =>
    intro _ hdig hzero
    have hc : c.isDigit = true := hdig c (by simp)
    obtain ⟨hc1, hc2⟩ := isDigit_toNat hc
    rw [digitsVal_append]
    cases hl : l with
    | nil =>
      subst hl
      have h0 : digitsVal ([] : List Char) = 0 := rfl
      rw [h0, Nat.mul_zero, Nat.zero_add, natDigits_eq]
      rw [if_pos (by omega)]
      rw [digitChar_inv hc]
      rfl
    | cons d ds =>
      subst hl
      have hlne : (d :: ds) ≠ [] := by simp
      have hldig : ∀ x ∈ d :: ds, x.isDigit = true :=
        fun x hx => hdig x (List.mem_append_left _ hx)
      have hlz : (d :: ds).head? ≠ some '0' := by
        intro hh
        have hh' : ((d :: ds) ++ [c]).head? = some '0' := by simpa using hh
        have := hzero hh'
        simp at this
      have hv : 1 ≤ digitsVal (d :: ds) := digitsVal_pos hlne hlz hldig
      rw [natDigits_eq]
      rw [if_neg (by omega)]
      have h10 : (10 * digitsVal (d :: ds) + (c.toNat - 48)) / 10 = digitsVal (d :: ds) := by
        omega
      have hm10 : (10 * digitsVal (d :: ds) + (c.toNat - 48)) % 10 = c.toNat - 48 := by
        omega
      rw [h10, hm10, digitChar_inv hc, ihl hlne hldig (fun hh => absurd hh hlz)]

/-! ## Lemmas: hex groups, octets, IPv4 and IPv6 forms -/

theorem digitChar_isLowerHex {m : Nat} (h : m < 16) : isLowerHex (Nat.digitChar m) = true := by
  interval_cases m <;> decide

theorem hexVal_digitChar {m : Nat} (h : m < 16) : hexVal (Nat.digitChar m) = m := by
  interval_cases m <;> decide

theorem hexDigits_ne_nil {n : Nat} : hexDigits n ≠ [] := by
  rw [hexDigits_eq]
  split <;> simp

theorem mem_hexDigits_isLowerHex :
    ∀ {n : Nat} {c : Char}, c ∈ hexDigits n → isLowerHex c = true := by
  intro n
  induction n using Nat.strong_induction_on with
  | _ n ih =>
    intro c hc
    rw [hexDigits_eq] at hc
    split at hc
    · rename_i h
      simp only [List.mem_singleton] at hc
      subst hc; exact digitChar_isLowerHex h
    · rename_i h
      rcases List.mem_append.mp hc with h1 | h2
      · exact ih (n / 16) (Nat.div_lt_self (by omega) (by omega)) h1
      · simp only [List.mem_singleton] at h2
        subst h2; exact digitChar_isLowerHex (Nat.mod_lt _ (by omega))

theorem hexsVal_append (l : List Char) (c : Char) :
    hexsVal (l ++ [c]) = 16 * hexsVal l + hexVal c := by
  simp [hexsVal, List.foldl_append]

theorem hexsVal_hexDigits (n : Nat) : hexsVal (hexDigits n) = n := by
  induction n using Nat.strong_induction_on with
  | _ n ih =>
    rw [hexDigits_eq]
    split
    · rename_i h
      simp only [hexsVal, List.foldl]
      rw [hexVal_digitChar h]
      omega
    · rename_i h
      rw [hexsVal_append, ih (n / 16) (Nat.div_lt_self (by omega) (by omega)),
        hexVal_digitChar (Nat.mod_lt _ (by omega))]
      omega

theorem length_hexDigits_le :
    ∀ (k : Nat) {n : Nat}, 0 < k → n < 16 ^ k → (hexDigits n).length ≤ k
  | 0, _, hk, _ => absurd hk (by omega)
  | k+1, n, _, hlt => by
    rw [hexDigits_eq]
    split
    · simp
    · rename_i h16
      have hk0 : 0 < k := by
        rcases Nat.eq_zero_or_pos k with rfl | hpos
        · rw [pow_one] at hlt; omega
        · exact hpos
      have hdiv : n / 16 < 16 ^ k := by
        rw [Nat.div_lt_iff_lt_mul (by omega)]
        calc n < 16 ^ (k + 1) := hlt
          _ = 16 ^ k * 16 := by rw [pow_succ]
      have := length_hexDigits_le k hk0 hdiv
      simp only [List.length_append, List.length_singleton]
      omega

theorem padLeft4_length {l : List Char} (h : l.length ≤ 4) : (padLeft4 l).length = 4 := by
  simp only [padLeft4, List.length_append, List.length_replicate]
  omega

theorem mem_padLeft4 {l : List Char} {c : Char} (h : c ∈ padLeft4 l) : c = '0' ∨ c ∈ l := by
  rcases List.mem_append.mp h with h1 | h2
  · exact Or.inl (List.eq_of_mem_replicate h1)
  · exact Or.inr h2

theorem foldl_hex_replicate_zero (m : Nat) :
    (List.replicate m '0').foldl (fun a c => 16 * a + hexVal c) 0 = 0 := by
  induction m with
  | zero => rfl
  | succ m ihm =>
    rw [List.replicate_succ, List.foldl_cons]
    have h0 : 16 * 0 + hexVal '0' = 0 := by decide
    rw [h0]
    exact ihm

theorem hexsVal_padLeft4 (l : List Char) : hexsVal (padLeft4 l) = hexsVal l := by
  unfold padLeft4 hexsVal
  rw [List.foldl_append, foldl_hex_replicate_zero]

theorem hex4_padLeft4_hexDigits {n : Nat} (h : n < 65536) :
    hex4 (padLeft4 (hexDigits n)) = some n := by
  have hpow : n < 16 ^ 4 := by norm_num; omega
  have hlen : (padLeft4 (hexDigits n)).length = 4 :=
    padLeft4_length (length_hexDigits_le 4 (by omega) hpow)
  have hall : (padLeft4 (hexDigits n)).all isLowerHex = true := by
    rw [List.all_eq_true]
    intro c hcm
    rcases mem_padLeft4 hcm with rfl | hcl
    · decide
    · exact mem_hexDigits_isLowerHex hcl
  unfold hex4
  rw [if_pos ⟨hlen, hall⟩, hexsVal_padLeft4, hexsVal_hexDigits]

theorem parseOctet_natDigits {n : Nat} (h : n ≤ 255) : parseOctet (natDigits n) = some n := by
  have hne : natDigits n ≠ [] := natDigits_ne_nil
  have hdig : (natDigits n).all Char.isDigit = true := by
    rw [List.all_eq_true]; exact fun c hc => mem_natDigits_isDigit hc
  have hzero : (natDigits n).head? = some '0' → natDigits n = ['0'] := by
    intro hh
    have hn0 : n = 0 := by
      by_contra hn
      exact natDigits_head_ne_zero hn hh
    subst hn0; rfl
  unfold parseOctet
  rw [if_pos ⟨hne, hdig, hzero⟩, digitsVal_natDigits, if_pos h]

theorem parseOctet_eq_some {l : List Char} {n : Nat} (h : parseOctet l = some n) :
    natDigits n = l ∧ n ≤ 255 := by
  unfold parseOctet at h
  split at h
  · rename_i hcond
    obtain ⟨hne, hdig, hzero⟩ := hcond
    split at h
    · rename_i hle
      obtain rfl : digitsVal l = n := by simpa [eq_comm] using h
      exact ⟨natDigits_digitsVal hne (List.all_eq_true.mp hdig) hzero, hle⟩
    · exact Option.noConfusion h
  · exact Option.noConfusion h

theorem not_mem_padHex {s : Nat} {c : Char} (hc : isLowerHex c = false) :
    c ∉ padLeft4 (hexDigits s) := by
  intro hm
  rcases mem_padLeft4 hm with rfl | hmm
  · exact absurd hc (by decide)
  · rw [mem_hexDigits_isLowerHex hmm] at hc
    exact Bool.noConfusion hc

theorem splitOnChar_expandIpv6 (s0 s1 s2 s3 s4 s5 s6 s7 : Nat) :
    splitOnChar ':' (expandIpv6 s0 s1 s2 s3 s4 s5 s6 s7) =
      [padLeft4 (hexDigits s0), padLeft4 (hexDigits s1), padLeft4 (hexDigits s2),
       padLeft4 (hexDigits s3), padLeft4 (hexDigits s4), padLeft4 (hexDigits s5),
       padLeft4 (hexDigits s6), padLeft4 (hexDigits s7)] := by
  unfold expandIpv6
  simp only [List.cons_append, List.append_assoc]
  rw [splitOnChar_append _ (not_mem_padHex (by decide)),
    splitOnChar_append _ (not_mem_padHex (by decide)),
    splitOnChar_append _ (not_mem_padHex (by decide)),
    splitOnChar_append _ (not_mem_padHex (by decide)),
    splitOnChar_append _ (not_mem_padHex (by decide)),
    splitOnChar_append _ (not_mem_padHex (by decide)),
    splitOnChar_append _ (not_mem_padHex (by decide)),
    splitOnChar_of_not_mem (not_mem_padHex (by decide))]

theorem parseExpIpv6_expandIpv6 {s0 s1 s2 s3 s4 s5 s6 s7 : Nat}
    (h0 : s0 < 65536) (h1 : s1 < 65536) (h2 : s2 < 65536) (h3 : s3 < 65536)
    (h4 : s4 < 65536) (h5 : s5 < 65536) (h6 : s6 < 65536) (h7 : s7 < 65536) :
    parseExpIpv6 (expandIpv6 s0 s1 s2 s3 s4 s5 s6 s7) =
      some (.Ipv6 s0 s1 s2 s3 s4 s5 s6 s7) := by
  unfold parseExpIpv6
  rw [splitOnChar_expandIpv6]
  simp [hex4_padLeft4_hexDigits, h0, h1, h2, h3, h4, h5, h6, h7]

theorem splitOnChar_renderIpv4 (a b c d : Nat) :
    splitOnChar '.' (renderIpv4 a b c d) =
      [natDigits a, natDigits b, natDigits c, natDigits d] := by
  unfold renderIpv4
  have hnd : ∀ n : Nat, '.' ∉ natDigits n := fun _ => not_mem_natDigits (by decide)
  simp only [List.cons_append, List.append_assoc]
  rw [splitOnChar_append _ (hnd a), splitOnChar_append _ (hnd b),
    splitOnChar_append _ (hnd c), splitOnChar_of_not_mem (hnd d)]

theorem parseIpv4_renderIpv4 {a b c d : Nat} (ha : a ≤ 255) (hb : b ≤ 255) (hc : c ≤ 255)
    (hd : d ≤ 255) : parseIpv4 (renderIpv4 a b c d) = some (a, b, c, d) := by
  unfold parseIpv4
  rw [splitOnChar_renderIpv4]
  simp [parseOctet_natDigits, ha, hb, hc, hd]

theorem parseIpv4_eq_some {l : List Char} {v : Nat × Nat × Nat × Nat}
    (h : parseIpv4 l = some v) :
    ∃ p q r s, splitOnChar '.' l = [p, q, r, s] ∧
      parseOctet p = some v.1 ∧ parseOctet q = some v.2.1 ∧
      parseOctet r = some v.2.2.1 ∧ parseOctet s = some v.2.2.2 := by
  unfold parseIpv4 at h
  split at h
  · rename_i p q r s hsplit
    rcases hx : parseOctet p with _ | x
    · rw [hx] at h; exact Option.noConfusion h
    rcases hy : parseOctet q with _ | y
    · rw [hx, hy] at h; exact Option.noConfusion h
    rcases hz : parseOctet r with _ | z
    · rw [hx, hy, hz] at h; exact Option.noConfusion h
    rcases hw : parseOctet s with _ | w
    · rw [hx, hy, hz, hw] at h; exact Option.noConfusion h
    rw [hx, hy, hz, hw] at h
    have hv : (x, y, z, w) = v := Option.some.inj h
    subst hv
    exact ⟨p, q, r, s, hsplit, hx, hy, hz, hw⟩
  · exact Option.noConfusion h

theorem splitOnChar_reverseLabels (l : List Char) :
    splitOnChar '.' (reverseLabels l) = (splitOnChar '.' l).reverse := by
  unfold reverseLabels
  exact splitOnChar_joinChar (by simp [splitOnChar_ne_nil])
    (fun p hp => not_mem_of_mem_splitOnChar (List.mem_reverse.mp hp))

theorem parseIpv4_reverseLabels_none {l : List Char} (h : parseIpv4 l = none) :
    parseIpv4 (reverseLabels l) = none := by
  rcases hrv : parseIpv4 (reverseLabels l) with _ | v
  · rfl
  · exfalso
    obtain ⟨p, q, r, s, hsplit, hp, hq, hr, hs⟩ := parseIpv4_eq_some hrv
    rw [splitOnChar_reverseLabels] at hsplit
    have hl : splitOnChar '.' l = [s, r, q, p] := by
      have h2 := congrArg List.reverse hsplit
      simpa using h2
    have hsome : parseIpv4 l = some (v.2.2.2, v.2.2.1, v.2.1, v.1) := by
      unfold parseIpv4
      rw [hl]
      simp [hs, hr, hq, hp]
    rw [h] at hsome
    exact Option.noConfusion hsome

/-! ## Lemmas: revert_host case analysis -/

theorem revertHost_bracketed {host : List Char} (h1 : host.head? = some '[')
    (h2 : host.getLast? = some ']') : revertHost host = .ok host := by
  unfold revertHost
  rw [if_pos ⟨h1, h2⟩]

theorem revertHost_ipv4 {host : List Char} {a b c d : Nat}
    (hbr : ¬(host.head? = some '[' ∧ host.getLast? = some ']'))
    (hp : parseIpv4 host = some (a, b, c, d)) :
    revertHost host = .ok (renderIpv4 a b c d) := by
  unfold revertHost
  rw [if_neg hbr, hp]

theorem revertHost_domain {host : List Char}
    (hbr : ¬(host.head? = some '[' ∧ host.getLast? = some ']'))
    (hp : parseIpv4 host = none) :
    revertHost host = .ok (reverseLabels host) := by
  unfold revertHost
  rw [if_neg hbr, hp]

theorem revertHost_reverseLabels {d : List Char} (hbr : '[' ∉ d)
    (hip : parseIpv4 d = none) : revertHost (reverseLabels d) = .ok d := by
  have hh : (reverseLabels d).head? ≠ some '[' := by
    intro hh
    have hmem : '[' ∈ reverseLabels d := by
      cases hr : reverseLabels d with
      | nil => rw [hr] at hh; exact Option.noConfusion hh
      | cons x xs =>
        rw [hr] at hh
        simp only [List.head?_cons, Option.some.injEq] at hh
        subst hh
        exact List.mem_cons_self _ _
    rcases mem_reverseLabels hmem with h | h
    · exact absurd h (by decide)
    · exact hbr h
  rw [revertHost_domain (fun hc => hh hc.1) (parseIpv4_reverseLabels_none hip),
    reverseLabels_reverseLabels]

theorem head_natDigits_isDigit (n : Nat) :
    ∃ c, (natDigits n).head? = some c ∧ c.isDigit = true := by
  obtain ⟨c, cs, hc⟩ := List.exists_cons_of_ne_nil (@natDigits_ne_nil n)
  exact ⟨c, by rw [hc]; rfl, mem_natDigits_isDigit (hc ▸ List.mem_cons_self _ _)⟩

theorem head_renderIpv4_isDigit (a b c d : Nat) :
    ∃ x, (renderIpv4 a b c d).head? = some x ∧ x.isDigit = true := by
  obtain ⟨x, hx, hdig⟩ := head_natDigits_isDigit a
  obtain ⟨c0, cs, hc⟩ := List.exists_cons_of_ne_nil (@natDigits_ne_nil a)
  refine ⟨x, ?_, hdig⟩
  unfold renderIpv4
  rw [hc]
  rw [hc] at hx
  simpa using hx

theorem revertHost_renderIpv4 {a b c d : Nat} (ha : a ≤ 255) (hb : b ≤ 255) (hc : c ≤ 255)
    (hd : d ≤ 255) : revertHost (renderIpv4 a b c d) = .ok (renderIpv4 a b c d) := by
  obtain ⟨x, hx, hdig⟩ := head_renderIpv4_isDigit a b c d
  have hh : (renderIpv4 a b c d).head? ≠ some '[' := by
    rw [hx]
    intro hxx
    simp only [Option.some.injEq] at hxx
    subst hxx
    exact absurd hdig (by decide)
  exact revertHost_ipv4 (fun hcond => hh hcond.1) (parseIpv4_renderIpv4 ha hb hc hd)

theorem revertHost_bracketIpv6 (e : List Char) :
    revertHost ('[' :: e ++ [']']) = .ok ('[' :: e ++ [']']) := by
  apply revertHost_bracketed
  · rfl
  · have hsh : '[' :: e ++ [']'] = ('[' :: e) ++ [']'] := by simp
    rw [hsh, List.getLast?_concat]

/-! ## The five segments of a converted URL -/

/-- Segment 1 of `convert`: the encoded host (empty when there is none). -/
def hostStrOf (u : ParsedUrl) : List Char :=
  match u.host with | some h => convertHost h | none => []

/-- Segment 3 of `convert`: the resolved port in decimal (empty when none). -/
def portStrOf (u : ParsedUrl) : List Char :=
  match portOrKnownDefault u with | some p => natDigits p | none => []

/-- Segment 4 of `convert`: the userinfo. -/
def uiStrOf (u : ParsedUrl) : List Char :=
  userinfoStr u.username u.password

/-- The query part of segment 5. -/
def queryStrOf (u : ParsedUrl) : List Char :=
  match u.query with | some q => '?' :: q | none => []

/-- The fragment part of segment 5. -/
def fragStrOf (u : ParsedUrl) : List Char :=
  match u.fragment with | some f => '#' :: f | none => []

/-- Segment 5 of `convert`: path, query and fragment, verbatim. -/
def restOf (u : ParsedUrl) : List Char :=
  u.path ++ queryStrOf u ++ fragStrOf u

/-- The decoded host emitted by `revert_host` on segment 1. -/
def hostOutOf (u : ParsedUrl) : List Char :=
  match u.host with
  | none => []
  | some (.Domain d) => d
  | some (.Ipv4 a b c d) => renderIpv4 a b c d
  | some (.Ipv6 s0 s1 s2 s3 s4 s5 s6 s7) =>
      '[' :: expandIpv6 s0 s1 s2 s3 s4 s5 s6 s7 ++ [']']

theorem convert_eq (u : ParsedUrl) :
    convert u = hostStrOf u ++ '/' :: (u.scheme ++ '/' :: (portStrOf u ++ '/' ::
      (uiStrOf u ++ '/' :: restOf u))) := by
  unfold convert hostStrOf portStrOf uiStrOf restOf queryStrOf fragStrOf
  simp [List.append_assoc, List.cons_append]

/-! ## Character sets of the segments -/

theorem mem_renderIpv4_cases {a b c d : Nat} {x : Char} (h : x ∈ renderIpv4 a b c d) :
    x = '.' ∨ x.isDigit = true := by
  have h2 : x = '.' ∨ (x ∈ natDigits a ∨ x ∈ natDigits b ∨ x ∈ natDigits c ∨ x ∈ natDigits d) := by
    simp only [renderIpv4, List.mem_append, List.mem_cons] at h
    tauto
  rcases h2 with h2 | h2 | h2 | h2 | h2
  · exact Or.inl h2
  all_goals exact Or.inr (mem_natDigits_isDigit h2)

theorem mem_padHex_isLowerHex {s : Nat} {x : Char} (h : x ∈ padLeft4 (hexDigits s)) :
    isLowerHex x = true := by
  rcases mem_padLeft4 h with rfl | hm
  · decide
  · exact mem_hexDigits_isLowerHex hm

theorem mem_expandIpv6_cases {s0 s1 s2 s3 s4 s5 s6 s7 : Nat} {x : Char}
    (h : x ∈ expandIpv6 s0 s1 s2 s3 s4 s5 s6 s7) :
    x = ':' ∨ isLowerHex x = true := by
  have h2 : x = ':' ∨ (x ∈ padLeft4 (hexDigits s0) ∨ x ∈ padLeft4 (hexDigits s1) ∨
      x ∈ padLeft4 (hexDigits s2) ∨ x ∈ padLeft4 (hexDigits s3) ∨
      x ∈ padLeft4 (hexDigits s4) ∨ x ∈ padLeft4 (hexDigits s5) ∨
      x ∈ padLeft4 (hexDigits s6) ∨ x ∈ padLeft4 (hexDigits s7)) := by
    simp only [expandIpv6, List.mem_append, List.mem_cons] at h
    tauto
  rcases h2 with h2 | h2 | h2 | h2 | h2 | h2 | h2 | h2 | h2
  · exact Or.inl h2
  all_goals exact Or.inr (mem_padHex_isLowerHex h2)

theorem not_mem_convertHost {hst : Host} (hh : HostOk hst) {x : Char}
    (hhex : isLowerHex x = false) (hdot : x ≠ '.') (hcolon : x ≠ ':')
    (hlb : x ≠ '[') (hrb : x ≠ ']')
    (hdom : ∀ d, hst = .Domain d → x ∉ d) : x ∉ convertHost hst := by
  intro hm
  cases hst with
  | Domain d =>
    rcases mem_reverseLabels hm with h | h
    · exact hdot h
    · exact hdom d rfl h
  | Ipv4 a b c d =>
    rcases mem_renderIpv4_cases hm with h | h
    · exact hdot h
    · have hx : isLowerHex x = true := by simp [isLowerHex, h]
      rw [hx] at hhex; exact Bool.noConfusion hhex
  | Ipv6 s0 s1 s2 s3 s4 s5 s6 s7 =>
    rcases List.mem_cons.mp hm with h | h
    · exact hlb h
    · rcases List.mem_append.mp h with h | h
      · rcases mem_expandIpv6_cases h with h | h
        · exact hcolon h
        · rw [h] at hhex; exact Bool.noConfusion hhex
      · rw [List.mem_singleton] at h; exact hrb h

theorem mem_userinfoStr {un : List Char} {pw : Option (List Char)} {x : Char}
    (h : x ∈ userinfoStr un pw) : x ∈ un ∨ x = ':' ∨ ∃ p, pw = some p ∧ x ∈ p := by
  cases un with
  | nil =>
    cases pw with
    | none => simp [userinfoStr] at h
    | some p =>
      have h' : x ∈ ([] : List Char) ++ ':' :: p := h
      rcases List.mem_cons.mp (by simpa using h') with rfl | h2
      · exact Or.inr (Or.inl rfl)
      · exact Or.inr (Or.inr ⟨p, rfl, h2⟩)
  | cons c cs =>
    cases pw with
    | none => exact Or.inl h
    | some p =>
      have h' : x ∈ (c :: cs) ++ ':' :: p := h
      rcases List.mem_append.mp h' with h1 | h1
      · exact Or.inl h1
      · rcases List.mem_cons.mp h1 with rfl | h2
        · exact Or.inr (Or.inl rfl)
        · exact Or.inr (Or.inr ⟨p, rfl, h2⟩)

theorem userinfoStr_eq_nil_iff {un : List Char} {pw : Option (List Char)} :
    userinfoStr un pw = [] ↔ un = [] ∧ pw = none := by
  cases un with
  | nil =>
    cases pw with
    | none => simp [userinfoStr]
    | some p =>
      constructor
      · intro h; exact absurd h (by simp [userinfoStr])
      · rintro ⟨-, h⟩; exact Option.noConfusion h
  | cons c cs =>
    cases pw with
    | none =>
      constructor
      · intro h; exact absurd h (by simp [userinfoStr])
      · rintro ⟨h, -⟩; exact List.noConfusion h
    | some p =>
      constructor
      · intro h; exact absurd h (by simp [userinfoStr])
      · rintro ⟨h, -⟩; exact List.noConfusion h

theorem userinfoStr_eq_of_ne {un : List Char} {pw : Option (List Char)}
    (h : ¬(un = [] ∧ pw = none)) :
    userinfoStr un pw = un ++ (match pw with | some p => ':' :: p | none => []) := by
  cases un with
  | nil =>
    cases pw with
    | none => exact absurd ⟨rfl, rfl⟩ h
    | some p => rfl
  | cons c cs =>
    cases pw with
    | none => simp [userinfoStr]
    | some p => rfl

theorem slash_not_mem_hostStrOf {u : ParsedUrl} (hv : ValidUrl u) : '/' ∉ hostStrOf u := by
  obtain ⟨-, -, -, -, -, -, -, hhost⟩ := hv
  unfold hostStrOf
  cases hh : u.host with
  | none => simp
  | some hst =>
    rw [hh] at hhost
    obtain ⟨hok, -⟩ := hhost
    exact not_mem_convertHost hok (by decide) (by decide) (by decide) (by decide) (by decide)
      (fun d hd => by
        subst hd
        obtain ⟨-, h1, -⟩ := hok
        exact h1)

theorem slash_not_mem_portStrOf (u : ParsedUrl) : '/' ∉ portStrOf u := by
  unfold portStrOf
  cases portOrKnownDefault u with
  | none => simp
  | some p => exact not_mem_natDigits (by decide)

theorem slash_not_mem_uiStrOf {u : ParsedUrl} (hv : ValidUrl u) : '/' ∉ uiStrOf u := by
  obtain ⟨-, -, ⟨-, -, hu3, -, -⟩, hpw, -, -, -, -⟩ := hv
  intro hm
  rcases mem_userinfoStr hm with h | h | ⟨p, hp, hmp⟩
  · exact hu3 h
  · exact absurd h (by decide)
  · rw [hp] at hpw
    obtain ⟨-, -, h3, -, -⟩ := hpw
    exact h3 hmp

theorem splitn_convert {u : ParsedUrl} (hv : ValidUrl u) :
    splitnChars '/' 5 (convert u) =
      [hostStrOf u, u.scheme, portStrOf u, uiStrOf u, restOf u] := by
  rw [convert_eq]
  exact splitnChars_five _ (slash_not_mem_hostStrOf hv) hv.2.1.2.1
    (slash_not_mem_portStrOf u) (slash_not_mem_uiStrOf hv)

/-! ## Evaluation of revertString on a well-split input -/

theorem revertString_of_splitn {s h sc po ui rest : List Char}
    (hsplit : splitnChars '/' 5 s = [h, sc, po, ui, rest]) :
    revertString s = revertCore h sc po ui rest := by
  unfold revertString
  rw [hsplit]

theorem revertCore_eq {h sc po ui rest h' : List Char} (hrh : revertHost h = .ok h') :
    revertCore h sc po ui rest = .ok (sc ++ [':']
      ++ (if h ≠ [] ∨ po ≠ [] ∨ ui ≠ [] then ['/', '/'] else [])
      ++ (if ui ≠ [] then ui ++ ['@'] else [])
      ++ h' ++ (if po ≠ [] then ':' :: po else []) ++ rest) := by
  unfold revertCore
  rw [hrh]
  rcases eq_or_ne h [] with hh | hh <;>
    rcases eq_or_ne ui [] with h2 | h2 <;>
    rcases eq_or_ne po [] with h3 | h3 <;>
    simp [hh, h2, h3, List.append_assoc]

theorem revertString_five {s h sc po ui rest : List Char}
    (hsplit : splitnChars '/' 5 s = [h, sc, po, ui, rest]) {h' : List Char}
    (hrh : revertHost h = .ok h') :
    revertString s = .ok (sc ++ [':']
      ++ (if h ≠ [] ∨ po ≠ [] ∨ ui ≠ [] then ['/', '/'] else [])
      ++ (if ui ≠ [] then ui ++ ['@'] else [])
      ++ h' ++ (if po ≠ [] then ':' :: po else []) ++ rest) := by
  rw [revertString_of_splitn hsplit, revertCore_eq hrh]

theorem revertHost_nil : revertHost [] = .ok [] := rfl

theorem revertHost_hostStrOf {u : ParsedUrl} (hv : ValidUrl u) :
    revertHost (hostStrOf u) = .ok (hostOutOf u) := by
  obtain ⟨-, -, -, -, -, -, -, hhost⟩ := hv
  unfold hostStrOf hostOutOf
  cases hh : u.host with
  | none => exact revertHost_nil
  | some hst =>
    rw [hh] at hhost
    obtain ⟨hok, -⟩ := hhost
    cases hst with
    | Domain d =>
      obtain ⟨-, -, -, -, -, -, hlb, -, hip⟩ := hok
      exact revertHost_reverseLabels hlb hip
    | Ipv4 a b c d =>
      obtain ⟨ha, hb, hc, hd⟩ := hok
      exact revertHost_renderIpv4 ha hb hc hd
    | Ipv6 s0 s1 s2 s3 s4 s5 s6 s7 =>
      exact revertHost_bracketIpv6 _

/-! ## Evaluation of the modelled parse on reconstructed strings -/

theorem spanNot_append {p : Char → Bool} {a b : List Char}
    (ha : ∀ c ∈ a, p c = false) (hb : ∀ c, b.head? = some c → p c = true) :
    spanNot p (a ++ b) = (a, b) := by
  induction a with
  | nil =>
    cases b with
    | nil => rfl
    | cons c cs =>
      have hpc := hb c rfl
      simp [spanNot, hpc]
  | cons c a' ih =>
    have hc : p c = false := ha c (List.mem_cons_self _ _)
    have ha' : ∀ x ∈ a', p x = false := fun x hx => ha x (List.mem_cons_of_mem _ hx)
    simp only [List.cons_append, spanNot, hc, Bool.false_eq_true, if_false, List.append_eq]
    rw [ih ha']

theorem queryStrOf_some {u : ParsedUrl} {q : List Char} (h : u.query = some q) :
    queryStrOf u = '?' :: q := by
  unfold queryStrOf
  rw [h]

theorem queryStrOf_none {u : ParsedUrl} (h : u.query = none) : queryStrOf u = [] := by
  unfold queryStrOf
  rw [h]

theorem fragStrOf_some {u : ParsedUrl} {f : List Char} (h : u.fragment = some f) :
    fragStrOf u = '#' :: f := by
  unfold fragStrOf
  rw [h]

theorem fragStrOf_none {u : ParsedUrl} (h : u.fragment = none) : fragStrOf u = [] := by
  unfold fragStrOf
  rw [h]

theorem splitFrag_restOf (u : ParsedUrl) (hpf : '#' ∉ u.path)
    (hqf : ∀ q, u.query = some q → '#' ∉ q) :
    splitFrag (restOf u) = (u.path ++ queryStrOf u, u.fragment) := by
  have hnotin : '#' ∉ u.path ++ queryStrOf u := by
    intro hm
    rcases List.mem_append.mp hm with hm1 | hm1
    · exact hpf hm1
    · cases hq : u.query with
      | some q =>
        rw [queryStrOf_some hq] at hm1
        rcases List.mem_cons.mp hm1 with hcq | hcq
        · exact absurd hcq (by decide)
        · exact hqf q hq hcq
      | none =>
        rw [queryStrOf_none hq] at hm1
        simp at hm1
  unfold splitFrag restOf
  cases hf : u.fragment with
  | some f =>
    rw [fragStrOf_some hf, breakOn_append _ hnotin]
  | none =>
    rw [fragStrOf_none hf, List.append_nil, breakOn_eq_none.mpr hnotin]

theorem splitQuery_pathQuery (u : ParsedUrl) (hp : '?' ∉ u.path) :
    splitQuery (u.path ++ queryStrOf u) = (u.path, u.query) := by
  unfold splitQuery
  cases hq : u.query with
  | some q =>
    rw [queryStrOf_some hq, breakOn_append _ hp]
  | none =>
    rw [queryStrOf_none hq, List.append_nil, breakOn_eq_none.mpr hp]

theorem finishUrl_restOf (u : ParsedUrl) (hp1 : '?' ∉ u.path) (hp2 : '#' ∉ u.path)
    (hqf : ∀ q, u.query = some q → '#' ∉ q) (sc : List Char) (host : Option Host)
    (port : Option Nat) (un : List Char) (pw : Option (List Char)) :
    finishUrl sc host port un pw (restOf u) =
      some ⟨sc, host, port, un, pw, u.path, u.query, u.fragment⟩ := by
  unfold finishUrl
  rw [splitFrag_restOf u hp2 hqf]
  show (match splitQuery (u.path ++ queryStrOf u) with
    | (path, query) =>
      some (⟨sc, host, port, un, pw, path, query, u.fragment⟩ : ParsedUrl)) = _
  rw [splitQuery_pathQuery u hp1]

theorem restOf_authEnd (u : ParsedUrl) (hpath : u.path = [] ∨ u.path.head? = some '/') :
    ∀ c, (restOf u).head? = some c → isAuthEnd c = true := by
  intro c hc
  unfold restOf at hc
  rcases hpath with hp | hp
  · rw [hp, List.nil_append] at hc
    cases hq : u.query with
    | some q =>
      rw [queryStrOf_some hq] at hc
      simp only [List.cons_append, List.head?_cons, Option.some.injEq] at hc
      subst hc; rfl
    | none =>
      rw [queryStrOf_none hq, List.nil_append] at hc
      cases hf : u.fragment with
      | some f =>
        rw [fragStrOf_some hf] at hc
        simp only [List.head?_cons, Option.some.injEq] at hc
        subst hc; rfl
      | none =>
        rw [fragStrOf_none hf] at hc
        exact Option.noConfusion hc
  · cases hpc : u.path with
    | nil => rw [hpc] at hp; exact Option.noConfusion hp
    | cons p0 ps =>
      rw [hpc] at hp hc
      simp only [List.head?_cons, Option.some.injEq] at hp
      simp only [List.cons_append, List.head?_cons, Option.some.injEq] at hc
      subst hc
      rw [hp]
      decide

theorem parseUrl_eq {s sc rest : List Char} (h : breakOn ':' s = some (sc, rest)) :
    parseUrl s = parseUrlCore sc rest := by
  unfold parseUrl
  rw [h]

/-! ## Character-class facts for the parse -/

theorem isAuthEnd_eq_false {c : Char} (h1 : c ≠ '/') (h2 : c ≠ '?') (h3 : c ≠ '#') :
    isAuthEnd c = false := by
  simp [isAuthEnd, h1, h2, h3]

theorem char_ne_of_isDigit {c : Char} (h : c.isDigit = true) {x : Char}
    (hx : x.isDigit = false) : c ≠ x := by
  intro he
  rw [he, hx] at h
  exact Bool.noConfusion h

theorem char_ne_of_isLowerHex {c : Char} (h : isLowerHex c = true) {x : Char}
    (hx : isLowerHex x = false) : c ≠ x := by
  intro he
  rw [he, hx] at h
  exact Bool.noConfusion h

theorem isAuthEnd_of_isDigit {c : Char} (h : c.isDigit = true) : isAuthEnd c = false :=
  isAuthEnd_eq_false (char_ne_of_isDigit h (by decide))
    (char_ne_of_isDigit h (by decide)) (char_ne_of_isDigit h (by decide))

theorem isAuthEnd_of_isLowerHex {c : Char} (h : isLowerHex c = true) : isAuthEnd c = false :=
  isAuthEnd_eq_false (char_ne_of_isLowerHex h (by decide))
    (char_ne_of_isLowerHex h (by decide)) (char_ne_of_isLowerHex h (by decide))

theorem at_not_mem_of_isDigit_all {l : List Char} (h : ∀ c ∈ l, c.isDigit = true) :
    '@' ∉ l := by
  intro hm
  have := h _ hm
  exact absurd this (by decide)

/-! ## parseHostPort on reconstructed host-port strings -/

/-- The optional `:port` suffix appended by the reverse converter. -/
def portSuffix : Option (List Char) → List Char
  | some po => ':' :: po
  | none => []

theorem take1_append_ne {d x : List Char} {ch : Char} (hdne : d ≠ []) (hmem : ch ∉ d) :
    (d ++ x).take 1 ≠ [ch] := by
  obtain ⟨c, d', rfl⟩ := List.exists_cons_of_ne_nil hdne
  simp only [List.cons_append, List.take_succ_cons, List.take_zero]
  intro h
  injection h with h1 _
  exact hmem (h1 ▸ List.mem_cons_self _ _)

theorem breakOn_portSuffix {d : List Char} (P? : Option (List Char))
    (hcolon : ':' ∉ d) :
    breakOn ':' (d ++ portSuffix P?) =
      match P? with
      | some po => some (d, po)
      | none => none := by
  cases P? with
  | some po => exact breakOn_append po hcolon
  | none =>
    show breakOn ':' (d ++ []) = none
    rw [List.append_nil]
    exact breakOn_eq_none.mpr hcolon

theorem parseHostPort_plain {d : List Char} (P? : Option (List Char)) (hdne : d ≠ [])
    (hlb : '[' ∉ d) (hcolon : ':' ∉ d) :
    parseHostPort (d ++ portSuffix P?) =
      (match parseIpv4 d with
       | some (a, b, c, e) => some (.Ipv4 a b c e, P?)
       | none => some (.Domain d, P?)) := by
  unfold parseHostPort
  rw [if_neg (take1_append_ne hdne hlb)]
  rw [breakOn_portSuffix P? hcolon]
  cases P? with
  | some po =>
    show (if d = [] then none
      else match parseIpv4 d with
        | some (a, b, c, e) => some (Host.Ipv4 a b c e, some po)
        | none => some (Host.Domain d, some po)) = _
    rw [if_neg hdne]
  | none =>
    show (if d ++ portSuffix none = [] then none
      else match parseIpv4 (d ++ portSuffix none) with
        | some (a, b, c, e) => some (Host.Ipv4 a b c e, none)
        | none => some (Host.Domain (d ++ portSuffix none), none)) = _
    have hnil : d ++ portSuffix none = d := List.append_nil d
    rw [hnil, if_neg hdne]

theorem not_mem_expandIpv6 {s0 s1 s2 s3 s4 s5 s6 s7 : Nat} {x : Char}
    (h1 : x ≠ ':') (h2 : isLowerHex x = false) :
    x ∉ expandIpv6 s0 s1 s2 s3 s4 s5 s6 s7 := by
  intro hm
  rcases mem_expandIpv6_cases hm with h | h
  · exact h1 h
  · rw [h] at h2; exact Bool.noConfusion h2

theorem parseHostPort_bracket {s0 s1 s2 s3 s4 s5 s6 s7 : Nat} (P? : Option (List Char))
    (h0 : s0 < 65536) (h1 : s1 < 65536) (h2 : s2 < 65536) (h3 : s3 < 65536)
    (h4 : s4 < 65536) (h5 : s5 < 65536) (h6 : s6 < 65536) (h7 : s7 < 65536) :
    parseHostPort (('[' :: expandIpv6 s0 s1 s2 s3 s4 s5 s6 s7 ++ [']']) ++ portSuffix P?) =
      some (.Ipv6 s0 s1 s2 s3 s4 s5 s6 s7, P?) := by
  have hshape : ('[' :: expandIpv6 s0 s1 s2 s3 s4 s5 s6 s7 ++ [']']) ++ portSuffix P? =
      '[' :: (expandIpv6 s0 s1 s2 s3 s4 s5 s6 s7 ++ ']' :: portSuffix P?) := by
    simp
  unfold parseHostPort
  rw [hshape]
  rw [if_pos (by simp)]
  rw [show ('[' :: (expandIpv6 s0 s1 s2 s3 s4 s5 s6 s7 ++ ']' :: portSuffix P?)).drop 1 =
      expandIpv6 s0 s1 s2 s3 s4 s5 s6 s7 ++ ']' :: portSuffix P? from rfl]
  rw [breakOn_append _ (not_mem_expandIpv6 (by decide) (by decide))]
  show (match parseExpIpv6 (expandIpv6 s0 s1 s2 s3 s4 s5 s6 s7) with
    | none => none
    | some h =>
      if portSuffix P? = [] then some (h, none)
      else if List.take 1 (portSuffix P?) = [':'] then
        some (h, some (List.drop 1 (portSuffix P?)))
      else none) = _
  rw [parseExpIpv6_expandIpv6 h0 h1 h2 h3 h4 h5 h6 h7]
  cases P? with
  | none => rfl
  | some po => rfl

theorem convertHost_ne_nil {hst : Host} (hok : HostOk hst) : convertHost hst ≠ [] := by
  cases hst with
  | Domain d =>
    obtain ⟨hdne, -⟩ := hok
    show reverseLabels d ≠ []
    intro h
    exact hdne (reverseLabels_eq_nil.mp h)
  | Ipv4 a b c d =>
    show renderIpv4 a b c d ≠ []
    unfold renderIpv4
    intro h
    have := congrArg List.length h
    simp only [List.length_append, List.length_cons, List.length_nil] at this
    omega
  | Ipv6 s0 s1 s2 s3 s4 s5 s6 s7 =>
    simp [convertHost]

theorem take2_rest_ne {path Q F : List Char} (hpath2 : path.take 2 ≠ ['/', '/'])
    (hQ : Q = [] ∨ ∃ q, Q = '?' :: q) (hF : F = [] ∨ ∃ f, F = '#' :: f) :
    (path ++ Q ++ F).take 2 ≠ ['/', '/'] := by
  have hQF : Q ++ F = [] ∨ ∃ c cs, Q ++ F = c :: cs ∧ (c = '?' ∨ c = '#') := by
    rcases hQ with rfl | ⟨q, rfl⟩
    · rcases hF with rfl | ⟨f, rfl⟩
      · exact Or.inl rfl
      · exact Or.inr ⟨'#', f, rfl, Or.inr rfl⟩
    · exact Or.inr ⟨'?', q ++ F, by simp, Or.inl rfl⟩
  rw [List.append_assoc]
  cases path with
  | nil =>
    rw [List.nil_append]
    rcases hQF with hqf | ⟨c, cs, hqf, hc⟩
    · rw [hqf]; simp
    · rw [hqf]
      intro hcontra
      have hcs : c = '/' := by
        have hh := congrArg List.head? hcontra
        simpa using hh
      rcases hc with rfl | rfl <;> exact absurd hcs (by decide)
  | cons p0 ps =>
    cases ps with
    | nil =>
      simp only [List.cons_append, List.nil_append, List.take_succ_cons]
      intro hcontra
      injection hcontra with h1 h2
      rcases hQF with hqf | ⟨c, cs, hqf, hc⟩
      · rw [hqf] at h2; simp at h2
      · rw [hqf] at h2
        simp only [List.take_succ_cons, List.take_zero] at h2
        injection h2 with h3 _
        rcases hc with rfl | rfl <;> exact absurd h3 (by decide)
    | cons p1 ps' =>
      simp only [List.cons_append, List.take_succ_cons, List.take_zero]
      simp only [List.take_succ_cons, List.take_zero] at hpath2
      intro hcontra
      injection hcontra with h1 h2
      injection h2 with h2 h3
      exact hpath2 (by rw [h1, h2])

/-! ## Userinfo and port segment shapes -/

theorem userinfoStr_some (un p : List Char) : userinfoStr un (some p) = un ++ ':' :: p := by
  cases un <;> rfl

theorem userinfoStr_none (un : List Char) : userinfoStr un none = un := by
  cases un <;> rfl

/-- The optional decimal port written by `convert`. -/
def portOpt (u : ParsedUrl) : Option (List Char) :=
  match portOrKnownDefault u with
  | some p => some (natDigits p)
  | none => none

theorem portSuffix_portOpt (u : ParsedUrl) :
    (if portStrOf u ≠ [] then ':' :: portStrOf u else []) = portSuffix (portOpt u) := by
  unfold portStrOf portOpt
  cases portOrKnownDefault u with
  | none => simp [portSuffix]
  | some p => simp [portSuffix, natDigits_ne_nil]

theorem portStrOf_eq_nil_iff (u : ParsedUrl) :
    portStrOf u = [] ↔ portOrKnownDefault u = none := by
  unfold portStrOf
  cases portOrKnownDefault u with
  | none => simp
  | some p => simp [natDigits_ne_nil]

theorem mem_portSuffix_portOpt {u : ParsedUrl} {c : Char}
    (h : c ∈ portSuffix (portOpt u)) : c = ':' ∨ c.isDigit = true := by
  unfold portOpt at h
  cases hk : portOrKnownDefault u with
  | none => rw [hk] at h; simp [portSuffix] at h
  | some p =>
    rw [hk] at h
    rcases List.mem_cons.mp h with rfl | hm
    · exact Or.inl rfl
    · exact Or.inr (mem_natDigits_isDigit hm)

/-! ## The host-port-and-finish step of the authority parse -/

theorem parseWithCreds_eval {u : ParsedUrl} {hst : Host} {UN : List Char}
    {PW : Option (List Char)}
    (hp1 : '?' ∉ u.path) (hp2 : '#' ∉ u.path)
    (hqf : ∀ q0, u.query = some q0 → '#' ∉ q0)
    (hptm : ∀ p, u.port = some p → defaultPort u.scheme ≠ some p)
    (hh : u.host = some hst) (hun : UN = u.username) (hpwe : PW = u.password)
    (hhp : parseHostPort (hostOutOf u ++ portSuffix (portOpt u)) =
      some (hst, portOpt u)) :
    parseWithCreds u.scheme UN PW (hostOutOf u ++ portSuffix (portOpt u)) (restOf u) =
      some u := by
  subst hun
  subst hpwe
  unfold parseWithCreds
  rw [hhp]
  cases hpo : portOpt u with
  | none =>
    show finishUrl u.scheme (some hst) none u.username u.password (restOf u) = some u
    have h1 : portOrKnownDefault u = none := by
      unfold portOpt at hpo
      cases hk : portOrKnownDefault u with
      | none => rfl
      | some p => rw [hk] at hpo; exact Option.noConfusion hpo
    have hptn : u.port = none := by
      unfold portOrKnownDefault at h1
      cases hpp : u.port with
      | none => rfl
      | some p => rw [hpp] at h1; exact Option.noConfusion h1
    rw [finishUrl_restOf u hp1 hp2 hqf]
    conv_rhs => rw [show u = (⟨u.scheme, some hst, none, u.username, u.password,
      u.path, u.query, u.fragment⟩ : ParsedUrl) from by rw [← hh, ← hptn]]
  | some po =>
    obtain ⟨p, hpk, rfl⟩ : ∃ p, portOrKnownDefault u = some p ∧ po = natDigits p := by
      unfold portOpt at hpo
      cases hk : portOrKnownDefault u with
      | none => rw [hk] at hpo; exact Option.noConfusion hpo
      | some pv =>
        rw [hk] at hpo
        exact ⟨pv, rfl, (Option.some.inj hpo).symm⟩
    show (if natDigits p ≠ [] ∧ (natDigits p).all Char.isDigit = true then
        finishUrl u.scheme (some hst)
          (if defaultPort u.scheme = some (digitsVal (natDigits p)) then none
           else some (digitsVal (natDigits p)))
          u.username u.password (restOf u)
      else none) = some u
    rw [if_pos ⟨natDigits_ne_nil, by
      rw [List.all_eq_true]; exact fun c hc => mem_natDigits_isDigit hc⟩]
    rw [digitsVal_natDigits]
    have hport : (if defaultPort u.scheme = some p then none else some p) = u.port := by
      unfold portOrKnownDefault at hpk
      cases hpp : u.port with
      | some p0 =>
        rw [hpp] at hpk
        have hp0 : p = p0 := (Option.some.inj hpk).symm
        subst hp0
        rw [if_neg (hptm p hpp)]
      | none =>
        rw [hpp] at hpk
        rw [if_pos hpk]
    rw [hport, finishUrl_restOf u hp1 hp2 hqf]
    conv_rhs => rw [show u = (⟨u.scheme, some hst, u.port, u.username, u.password,
      u.path, u.query, u.fragment⟩ : ParsedUrl) from by rw [← hh]]

theorem parseAuthority_noat {sc auth tail : List Char} (h : breakOn '@' auth = none) :
    parseAuthority sc auth tail = parseWithCreds sc [] none auth tail := by
  unfold parseAuthority
  rw [h]

theorem parseAuthority_creds {sc auth ui hp tail n p : List Char}
    (h : breakOn '@' auth = some (ui, hp)) (h2 : breakOn ':' ui = some (n, p)) :
    parseAuthority sc auth tail = parseWithCreds sc n (some p) hp tail := by
  unfold parseAuthority
  rw [h]
  show (match breakOn ':' ui with
    | some (n, p) => parseWithCreds sc n (some p) hp tail
    | none => parseWithCreds sc ui none hp tail) = _
  rw [h2]

theorem parseAuthority_nopassword {sc auth ui hp tail : List Char}
    (h : breakOn '@' auth = some (ui, hp)) (h2 : breakOn ':' ui = none) :
    parseAuthority sc auth tail = parseWithCreds sc ui none hp tail := by
  unfold parseAuthority
  rw [h]
  show (match breakOn ':' ui with
    | some (n, p) => parseWithCreds sc n (some p) hp tail
    | none => parseWithCreds sc ui none hp tail) = _
  rw [h2]

/-! ## The authority branch of the parse, evaluated on a reconstruction -/

theorem parseUrlCore_authority {u : ParsedUrl} (hv : ValidUrl u) {hst : Host}
    (hh : u.host = some hst)
    (hhp : parseHostPort (hostOutOf u ++ portSuffix (portOpt u)) = some (hst, portOpt u))
    (hAE : ∀ c ∈ hostOutOf u, isAuthEnd c = false)
    (hAt : '@' ∉ hostOutOf u) :
    parseUrlCore u.scheme ('/' :: '/' ::
      ((if uiStrOf u ≠ [] then uiStrOf u ++ ['@'] else [])
        ++ (hostOutOf u ++ portSuffix (portOpt u)) ++ restOf u)) = some u := by
  obtain ⟨hsne, ⟨hsc1, hsc2, hsc3, hsc4⟩, ⟨hu1, hu2, hu3, hu4, hu5⟩, hpwm, hptm,
    ⟨hp1, hp2⟩, hqm, hhostm⟩ := hv
  rw [hh] at hhostm
  obtain ⟨hok, hpa⟩ := hhostm
  have hqf : ∀ q0, u.query = some q0 → '#' ∉ q0 := by
    intro q0 hq0
    rw [hq0] at hqm
    exact hqm
  have hptm' : ∀ p, u.port = some p → defaultPort u.scheme ≠ some p := by
    intro p hp0
    rw [hp0] at hptm
    exact hptm
  have hpwf : ∀ pp, u.password = some pp →
      '@' ∉ pp ∧ ':' ∉ pp ∧ '/' ∉ pp ∧ '?' ∉ pp ∧ '#' ∉ pp := by
    intro pp hpp
    rw [hpp] at hpwm
    exact hpwm
  have hAtUi : '@' ∉ uiStrOf u := by
    intro hm
    rcases mem_userinfoStr hm with h | h | ⟨pp, hpp, hmp⟩
    · exact hu1 h
    · exact absurd h (by decide)
    · exact (hpwf pp hpp).1 hmp
  have hAEUi : ∀ c ∈ uiStrOf u, isAuthEnd c = false := by
    intro c hm
    rcases mem_userinfoStr hm with h | h | ⟨pp, hpp, hmp⟩
    · exact isAuthEnd_eq_false (fun he => hu3 (he ▸ h)) (fun he => hu4 (he ▸ h))
        (fun he => hu5 (he ▸ h))
    · subst h; rfl
    · obtain ⟨-, -, hq3, hq4, hq5⟩ := hpwf pp hpp
      exact isAuthEnd_eq_false (fun he => hq3 (he ▸ hmp)) (fun he => hq4 (he ▸ hmp))
        (fun he => hq5 (he ▸ hmp))
  have hAEP : ∀ c ∈ portSuffix (portOpt u), isAuthEnd c = false := by
    intro c hm
    rcases mem_portSuffix_portOpt hm with rfl | h
    · rfl
    · exact isAuthEnd_of_isDigit h
  have hAtHP : '@' ∉ hostOutOf u ++ portSuffix (portOpt u) := by
    intro hm
    rcases List.mem_append.mp hm with h | h
    · exact hAt h
    · rcases mem_portSuffix_portOpt h with h1 | h1
      · exact absurd h1 (by decide)
      · exact absurd h1 (by decide)
  unfold parseUrlCore
  rw [if_neg hsne, if_pos (by rfl)]
  simp only [List.drop_succ_cons, List.drop_zero]
  rw [spanNot_append (by
      intro c hc
      rcases List.mem_append.mp hc with h | h
      · rcases eq_or_ne (uiStrOf u) [] with hui | hui
        · rw [hui] at h; simp at h
        · rw [if_pos hui] at h
          rcases List.mem_append.mp h with h1 | h1
          · exact hAEUi c h1
          · rw [List.mem_singleton] at h1; subst h1; rfl
      · rcases List.mem_append.mp h with h1 | h1
        · exact hAE c h1
        · exact hAEP c h1)
    (restOf_authEnd u hpa)]
  show parseAuthority u.scheme
    ((if uiStrOf u ≠ [] then uiStrOf u ++ ['@'] else [])
      ++ (hostOutOf u ++ portSuffix (portOpt u))) (restOf u) = some u
  rcases eq_or_ne (uiStrOf u) [] with hui | hui
  · obtain ⟨hun, hpwn⟩ := userinfoStr_eq_nil_iff.mp hui
    rw [hui, if_neg (by simp), List.nil_append]
    rw [parseAuthority_noat (breakOn_eq_none.mpr hAtHP)]
    exact parseWithCreds_eval hp1 hp2 hqf hptm' hh hun.symm hpwn.symm hhp
  · rw [if_pos hui]
    have hassoc : (uiStrOf u ++ ['@']) ++ (hostOutOf u ++ portSuffix (portOpt u)) =
        uiStrOf u ++ '@' :: (hostOutOf u ++ portSuffix (portOpt u)) := by
      simp
    rw [hassoc]
    cases hpw : u.password with
    | some pp =>
      have hui_eq : uiStrOf u = u.username ++ ':' :: pp := by
        unfold uiStrOf
        rw [hpw, userinfoStr_some]
      rw [hui_eq]
      rw [parseAuthority_creds (breakOn_append _ (hui_eq ▸ hAtUi))
        (breakOn_append _ hu2)]
      exact parseWithCreds_eval hp1 hp2 hqf hptm' hh rfl hpw.symm hhp
    | none =>
      have hui_eq : uiStrOf u = u.username := by
        unfold uiStrOf
        rw [hpw, userinfoStr_none]
      rw [hui_eq]
      rw [parseAuthority_nopassword (breakOn_append _ (hui_eq ▸ hAtUi))
        (breakOn_eq_none.mpr hu2)]
      exact parseWithCreds_eval hp1 hp2 hqf hptm' hh rfl hpw.symm hhp

/-! ## Host-variant evaluation of the reconstructed host-port section -/

theorem hostPort_eval {u : ParsedUrl} {hst : Host} (hh : u.host = some hst)
    (hok : HostOk hst) :
    parseHostPort (hostOutOf u ++ portSuffix (portOpt u)) = some (hst, portOpt u) ∧
    (∀ c ∈ hostOutOf u, isAuthEnd c = false) ∧ '@' ∉ hostOutOf u := by
  cases hst with
  | Domain d =>
    obtain ⟨hdne, hds, hdc, hdat, hdq, hdh, hlb, hrb, hip⟩ := hok
    have hout : hostOutOf u = d := by
      unfold hostOutOf
      rw [hh]
    refine ⟨?_, ?_, ?_⟩
    · rw [hout, parseHostPort_plain (portOpt u) hdne hlb hdc, hip]
    · rw [hout]
      intro c hm
      exact isAuthEnd_eq_false (fun he => hds (he ▸ hm)) (fun he => hdq (he ▸ hm))
        (fun he => hdh (he ▸ hm))
    · rw [hout]
      exact hdat
  | Ipv4 a b c d =>
    obtain ⟨ha, hb, hc, hd⟩ := hok
    have hout : hostOutOf u = renderIpv4 a b c d := by
      unfold hostOutOf
      rw [hh]
    have hne : renderIpv4 a b c d ≠ [] :=
      @convertHost_ne_nil (.Ipv4 a b c d) ⟨ha, hb, hc, hd⟩
    have hnotin : ∀ x : Char, x.isDigit = false → x ≠ '.' → x ∉ renderIpv4 a b c d := by
      intro x hx1 hx2 hm
      rcases mem_renderIpv4_cases hm with h | h
      · exact hx2 h
      · rw [h] at hx1; exact Bool.noConfusion hx1
    refine ⟨?_, ?_, ?_⟩
    · rw [hout, parseHostPort_plain (portOpt u) hne
        (hnotin '[' (by decide) (by decide)) (hnotin ':' (by decide) (by decide)),
        parseIpv4_renderIpv4 ha hb hc hd]
    · rw [hout]
      intro x hm
      rcases mem_renderIpv4_cases hm with h | h
      · subst h; rfl
      · exact isAuthEnd_of_isDigit h
    · rw [hout]
      exact hnotin '@' (by decide) (by decide)
  | Ipv6 s0 s1 s2 s3 s4 s5 s6 s7 =>
    obtain ⟨h0, h1, h2, h3, h4, h5, h6, h7⟩ := hok
    have hout : hostOutOf u = '[' :: expandIpv6 s0 s1 s2 s3 s4 s5 s6 s7 ++ [']'] := by
      unfold hostOutOf
      rw [hh]
    refine ⟨?_, ?_, ?_⟩
    · rw [hout]
      exact parseHostPort_bracket (portOpt u) h0 h1 h2 h3 h4 h5 h6 h7
    · rw [hout]
      intro x hm
      rcases List.mem_cons.mp hm with rfl | hm1
      · rfl
      · rcases List.mem_append.mp hm1 with hm2 | hm2
        · rcases mem_expandIpv6_cases hm2 with rfl | hx
          · rfl
          · exact isAuthEnd_of_isLowerHex hx
        · rw [List.mem_singleton] at hm2
          subst hm2; rfl
    · rw [hout]
      intro hm
      rcases List.mem_cons.mp hm with he | hm1
      · exact absurd he (by decide)
      · rcases List.mem_append.mp hm1 with hm2 | hm2
        · rcases mem_expandIpv6_cases hm2 with he | hx
          · exact absurd he (by decide)
          · exact absurd hx (by decide)
        · rw [List.mem_singleton] at hm2
          exact absurd hm2 (by decide)

/-! ## The full round trip -/

theorem revert_eq_of {s R : List Char} (h : revertString s = .ok R) :
    revert s = .ok (parseUrl R) := by
  unfold revert
  rw [h]

theorem queryStrOf_cases (u : ParsedUrl) :
    queryStrOf u = [] ∨ ∃ q0, queryStrOf u = '?' :: q0 := by
  rcases hq : u.query with - | q0
  · rw [queryStrOf_none hq]; exact Or.inl rfl
  · rw [queryStrOf_some hq]; exact Or.inr ⟨q0, rfl⟩

theorem fragStrOf_cases (u : ParsedUrl) :
    fragStrOf u = [] ∨ ∃ f0, fragStrOf u = '#' :: f0 := by
  rcases hf : u.fragment with - | f0
  · rw [fragStrOf_none hf]; exact Or.inl rfl
  · rw [fragStrOf_some hf]; exact Or.inr ⟨f0, rfl⟩

theorem parseUrl_reconstruction {u : ParsedUrl} (hv : ValidUrl u) :
    parseUrl (u.scheme ++ [':']
      ++ (if hostStrOf u ≠ [] ∨ portStrOf u ≠ [] ∨ uiStrOf u ≠ [] then ['/', '/'] else [])
      ++ (if uiStrOf u ≠ [] then uiStrOf u ++ ['@'] else [])
      ++ hostOutOf u ++ (if portStrOf u ≠ [] then ':' :: portStrOf u else [])
      ++ restOf u) = some u := by
  have hvc := hv
  obtain ⟨hsne, ⟨hsc1, hsc2, hsc3, hsc4⟩, -, -, -, ⟨hp1, hp2⟩, hqm, hhostm⟩ := hvc
  have hqf : ∀ q0, u.query = some q0 → '#' ∉ q0 := by
    intro q0 hq0
    rw [hq0] at hqm
    exact hqm
  cases hh : u.host with
  | some hst =>
    rw [hh] at hhostm
    obtain ⟨hok, -⟩ := hhostm
    have hcond : hostStrOf u ≠ [] := by
      unfold hostStrOf
      rw [hh]
      exact convertHost_ne_nil hok
    obtain ⟨hhp, hAE, hAt⟩ := hostPort_eval hh hok
    rw [if_pos (Or.inl hcond)]
    have hsh : u.scheme ++ [':'] ++ ['/', '/']
        ++ (if uiStrOf u ≠ [] then uiStrOf u ++ ['@'] else [])
        ++ hostOutOf u ++ (if portStrOf u ≠ [] then ':' :: portStrOf u else [])
        ++ restOf u
      = u.scheme ++ ':' :: ('/' :: '/' ::
        ((if uiStrOf u ≠ [] then uiStrOf u ++ ['@'] else [])
          ++ (hostOutOf u ++ portSuffix (portOpt u)) ++ restOf u)) := by
      rw [← portSuffix_portOpt]
      simp [List.append_assoc]
    rw [hsh, parseUrl_eq (breakOn_append _ hsc1)]
    exact parseUrlCore_authority hv hh hhp hAE hAt
  | none =>
    rw [hh] at hhostm
    obtain ⟨hun, hpwn, hptn, hdp, hpath2⟩ := hhostm
    have h1 : hostStrOf u = [] := by
      unfold hostStrOf
      rw [hh]
    have hpk : portOrKnownDefault u = none := by
      unfold portOrKnownDefault
      rw [hptn]
      exact hdp
    have h2 : portStrOf u = [] := (portStrOf_eq_nil_iff u).mpr hpk
    have h3 : uiStrOf u = [] := by
      unfold uiStrOf
      rw [hun, hpwn]
      rfl
    have h4 : hostOutOf u = [] := by
      unfold hostOutOf
      rw [hh]
    rw [h1, h2, h3, h4]
    rw [if_neg (by simp), if_neg (by simp), if_neg (by simp)]
    have hsh : u.scheme ++ [':'] ++ ([] : List Char) ++ ([] : List Char)
        ++ ([] : List Char) ++ ([] : List Char) ++ restOf u
      = u.scheme ++ ':' :: restOf u := by
      simp
    rw [hsh, parseUrl_eq (breakOn_append _ hsc1)]
    unfold parseUrlCore
    rw [if_neg hsne]
    have htake2 : (restOf u).take 2 ≠ ['/', '/'] := by
      unfold restOf
      exact take2_rest_ne hpath2 (queryStrOf_cases u) (fragStrOf_cases u)
    rw [if_neg htake2]
    rw [finishUrl_restOf u hp1 hp2 hqf]
    conv_rhs => rw [show u = (⟨u.scheme, none, none, [], none,
      u.path, u.query, u.fragment⟩ : ParsedUrl) from by rw [← hh, ← hptn, ← hun, ← hpwn]]

theorem revert_convert {u : ParsedUrl} (hv : ValidUrl u) :
    revert (convert u) = .ok (some u) := by
  rw [revert_eq_of (revertString_five (splitn_convert hv) (revertHost_hostStrOf hv)),
    parseUrl_reconstruction hv]

/-! ## Totality of the host decoder and of the reconstruction -/

theorem revertHost_ok (h : List Char) : ∃ r, revertHost h = .ok r := by
  unfold revertHost
  split
  · exact ⟨_, rfl⟩
  · split <;> exact ⟨_, rfl⟩

theorem revertCore_ok (h sc po ui pa : List Char) :
    ∃ r, revertCore h sc po ui pa = .ok r := by
  obtain ⟨r, hr⟩ := revertHost_ok h
  exact ⟨_, revertCore_eq hr⟩

theorem revertString_error_cases (s : List Char) :
    (revertString s = .error (.InvalidFmhUrl s) ∧ (splitnChars '/' 5 s).length ≠ 5)
    ∨ ((∃ r, revertString s = .ok r) ∧ (splitnChars '/' 5 s).length = 5) := by
  unfold revertString
  rcases hl : splitnChars '/' 5 s with - | ⟨a, l1⟩
  · exact Or.inl ⟨rfl, by simp⟩
  rcases l1 with - | ⟨b, l2⟩
  · exact Or.inl ⟨rfl, by simp⟩
  rcases l2 with - | ⟨c, l3⟩
  · exact Or.inl ⟨rfl, by simp⟩
  rcases l3 with - | ⟨d, l4⟩
  · exact Or.inl ⟨rfl, by simp⟩
  rcases l4 with - | ⟨e, l5⟩
  · exact Or.inl ⟨rfl, by simp⟩
  rcases l5 with - | ⟨f, l6⟩
  · exact Or.inr ⟨revertCore_ok a b c d e, by simp⟩
  · refine Or.inl ⟨rfl, ?_⟩
    simp only [List.length_cons]
    omega

/-- Strictness of the IPv4 parse: a successfully parsed address re-renders
to exactly the input string. -/
theorem renderIpv4_of_parse {host : List Char} {a b c d : Nat}
    (hp : parseIpv4 host = some (a, b, c, d)) : renderIpv4 a b c d = host := by
  obtain ⟨p, q, r, s, hsplit, hpp, hqq, hrr, hss⟩ := parseIpv4_eq_some hp
  obtain ⟨hp1, -⟩ := parseOctet_eq_some hpp
  obtain ⟨hq1, -⟩ := parseOctet_eq_some hqq
  obtain ⟨hr1, -⟩ := parseOctet_eq_some hrr
  obtain ⟨hs1, -⟩ := parseOctet_eq_some hss
  have hj := joinChar_splitOnChar '.' host
  rw [hsplit] at hj
  rw [← hj]
  simp [renderIpv4, joinChar, hp1, hq1, hr1, hs1]

/-- Shape of one group of the expanded IPv6 form: exactly four lowercase
hex digits. -/
theorem padHex_group {s : Nat} (h : s < 65536) :
    (padLeft4 (hexDigits s)).length = 4 ∧ (padLeft4 (hexDigits s)).all isLowerHex = true := by
  constructor
  · exact padLeft4_length (length_hexDigits_le 4 (by omega) (by norm_num; omega))
  · rw [List.all_eq_true]
    intro c hcm
    rcases mem_padLeft4 hcm with rfl | hcl
    · decide
    · exact mem_hexDigits_isLowerHex hcl

/-! ## The claims -/

/-- C1: for every URL `u` accepted by the external parser, `revert (convert u)`
succeeds and yields back exactly the parsed URL `u` (round trip
URL → FMH-URL → URL); the two components therefore agree on every field,
so in particular their canonical re-serializations agree. -/
theorem C1_round_trip {u : ParsedUrl} (hv : ValidUrl u) :
    revert (convert u) = .ok (some u) :=
  revert_convert hv

/-- Round trip at a concrete URL, `https://sub.example.com/users`. -/
theorem C1_round_trip_witness :
    ValidUrl (⟨"https".data, some (.Domain "sub.example.com".data), none, [], none,
      "/users".data, none, none⟩ : ParsedUrl) ∧
    revert (convert (⟨"https".data, some (.Domain "sub.example.com".data), none, [], none,
      "/users".data, none, none⟩ : ParsedUrl)) =
      .ok (some (⟨"https".data, some (.Domain "sub.example.com".data), none, [], none,
        "/users".data, none, none⟩ : ParsedUrl)) := by
  have hv : ValidUrl (⟨"https".data, some (.Domain "sub.example.com".data), none, [], none,
      "/users".data, none, none⟩ : ParsedUrl) :=
    ⟨by decide, by decide, by decide, trivial, trivial, by decide, trivial,
      ⟨⟨by decide, by decide, by decide, by decide, by decide, by decide, by decide,
        by decide, by decide⟩, Or.inr rfl⟩⟩
  exact ⟨hv, C1_round_trip hv⟩

/-- C2: `revert` fails exactly when the bounded split yields fewer than five
segments — equivalently, when the input has fewer than four `/`
characters — and the error is always `InvalidFmhUrl` carrying the input
itself. -/
theorem C2_error_characterization (s : List Char) :
    (revert s = .error (.InvalidFmhUrl s) ↔ (splitnChars '/' 5 s).length < 5) ∧
    ((splitnChars '/' 5 s).length < 5 ↔ s.count '/' < 4) ∧
    (∀ e, revert s = .error e → e = .InvalidFmhUrl s) := by
  have hmin : (splitnChars '/' 5 s).length = min 5 (s.count '/' + 1) :=
    @length_splitnChars '/' 4 s
  rcases revertString_error_cases s with ⟨he, hne⟩ | ⟨⟨r, hr⟩, hlen⟩
  · unfold revert
    rw [he]
    refine ⟨⟨fun _ => by omega, fun _ => rfl⟩, by omega, ?_⟩
    intro e he2
    exact (Except.error.inj he2).symm
  · unfold revert
    rw [hr]
    refine ⟨⟨fun h => Except.noConfusion h, fun h => absurd hlen (Nat.ne_of_lt h)⟩,
      by omega, ?_⟩
    intro e he2
    exact Except.noConfusion he2

/-- C3: refutation of the literal statement — the input `"/a/////x"` splits
into five segments with empty host, empty port and empty userinfo, so no
authority marker is emitted, yet the reconstructed string `"a://x"` does
contain `"//"` immediately after `"a:"` (supplied verbatim by the path
segment `"//x"`). -/
theorem C3_counterexample :
    splitnChars '/' 5 "/a/////x".data = [[], "a".data, [], [], "//x".data] ∧
    revertString "/a/////x".data = .ok "a://x".data ∧
    "a://x".data = "a".data ++ ':' :: '/' :: '/' :: "x".data ∧
    ¬(([] : List Char) ≠ [] ∨ ([] : List Char) ≠ [] ∨ ([] : List Char) ≠ []) :=
  ⟨rfl, rfl, rfl, by decide⟩

/-- C3 (amended): for every input that splits into the five segments host,
scheme, port, userinfo, rest, the reconstruction emits the `"//"` marker
directly after `scheme ++ ":"` exactly when host, port or userinfo is
non-empty, followed by the userinfo (with a trailing `@`), the decoded
host, the port (with a leading `:`) and the rest verbatim — so `"//"` can
also reach the output inside the rest segment. -/
theorem C3_authority_marker {s h sc po ui rest h' : List Char}
    (hsplit : splitnChars '/' 5 s = [h, sc, po, ui, rest])
    (hrh : revertHost h = .ok h') :
    revertString s = .ok (sc ++ [':']
      ++ (if h ≠ [] ∨ po ≠ [] ∨ ui ≠ [] then ['/', '/'] else [])
      ++ (if ui ≠ [] then ui ++ ['@'] else [])
      ++ h' ++ (if po ≠ [] then ':' :: po else []) ++ rest) :=
  revertString_five hsplit hrh

/-- Reconstruction shape at the concrete input `"a/b/c/d/e"`. -/
theorem C3_authority_marker_witness :
    revertString "a/b/c/d/e".data = .ok ("b".data ++ [':']
      ++ (if "a".data ≠ [] ∨ "c".data ≠ [] ∨ "d".data ≠ [] then ['/', '/'] else [])
      ++ (if "d".data ≠ [] then "d".data ++ ['@'] else [])
      ++ "a".data ++ (if "c".data ≠ [] then ':' :: "c".data else []) ++ "e".data) :=
  C3_authority_marker (by decide) rfl

/-- C4: the userinfo segment of `convert` (segment 4) is empty exactly when
the username is empty and the password absent; otherwise it is the
username followed by `:password` exactly when a password is present — so
a URL parsed with empty username and no password (as from a bare `@`)
yields the same segment as one with no userinfo at all. -/
theorem C4_userinfo_segment {u : ParsedUrl} (hv : ValidUrl u) :
    (splitnChars '/' 5 (convert u))[3]? = some (userinfoStr u.username u.password) ∧
    (userinfoStr u.username u.password = [] ↔ u.username = [] ∧ u.password = none) ∧
    (∀ p, u.password = some p →
      userinfoStr u.username u.password = u.username ++ ':' :: p) ∧
    (u.password = none → userinfoStr u.username u.password = u.username) := by
  refine ⟨?_, userinfoStr_eq_nil_iff, ?_, ?_⟩
  · rw [splitn_convert hv]
    rfl
  · intro p hp
    rw [hp, userinfoStr_some]
  · intro hp
    rw [hp, userinfoStr_none]

/-- Userinfo characterization at a concrete URL with credentials. -/
theorem C4_userinfo_segment_witness :
    (splitnChars '/' 5 (convert (⟨"ftp".data, some (.Domain "example.com".data), none,
        "user".data, some "pw".data, "/f.txt".data, none, none⟩ : ParsedUrl)))[3]? =
      some (userinfoStr "user".data (some "pw".data)) := by
  have hv : ValidUrl (⟨"ftp".data, some (.Domain "example.com".data), none,
      "user".data, some "pw".data, "/f.txt".data, none, none⟩ : ParsedUrl) :=
    ⟨by decide, by decide, by decide, by decide, trivial, by decide, trivial,
      ⟨⟨by decide, by decide, by decide, by decide, by decide, by decide, by decide,
        by decide, by decide⟩, Or.inr rfl⟩⟩
  exact (C4_userinfo_segment hv).1

/-- C5: host encoding is variant-determined — a domain becomes its
dot-labels in reversed order rejoined with dots, an IPv4 host its
dotted-decimal rendering unchanged, and an IPv6 host its expansion into
exactly eight colon-separated groups of exactly four lowercase hex digits
(no `::` compression, no zero suppression), wrapped in `[` and `]`. -/
theorem C5_host_encoding (d : List Char) (b0 b1 b2 b3 : Nat)
    (s0 s1 s2 s3 s4 s5 s6 s7 : Nat)
    (h0 : s0 < 65536) (h1 : s1 < 65536) (h2 : s2 < 65536) (h3 : s3 < 65536)
    (h4 : s4 < 65536) (h5 : s5 < 65536) (h6 : s6 < 65536) (h7 : s7 < 65536) :
    convertHost (.Domain d) = joinChar '.' ((splitOnChar '.' d).reverse) ∧
    convertHost (.Ipv4 b0 b1 b2 b3) = renderIpv4 b0 b1 b2 b3 ∧
    convertHost (.Ipv6 s0 s1 s2 s3 s4 s5 s6 s7) =
      '[' :: expandIpv6 s0 s1 s2 s3 s4 s5 s6 s7 ++ [']'] ∧
    (splitOnChar ':' (expandIpv6 s0 s1 s2 s3 s4 s5 s6 s7)).length = 8 ∧
    (∀ g ∈ splitOnChar ':' (expandIpv6 s0 s1 s2 s3 s4 s5 s6 s7),
      g.length = 4 ∧ g.all isLowerHex = true) := by
  refine ⟨rfl, rfl, rfl, ?_, ?_⟩
  · rw [splitOnChar_expandIpv6]
    rfl
  · rw [splitOnChar_expandIpv6]
    intro g hg
    simp only [List.mem_cons, List.not_mem_nil, or_false] at hg
    rcases hg with rfl | rfl | rfl | rfl | rfl | rfl | rfl | rfl
    · exact padHex_group h0
    · exact padHex_group h1
    · exact padHex_group h2
    · exact padHex_group h3
    · exact padHex_group h4
    · exact padHex_group h5
    · exact padHex_group h6
    · exact padHex_group h7

/-- Expanded IPv6 group count at the address with segments 0,…,0,1. -/
theorem C5_host_encoding_witness :
    (splitOnChar ':' (expandIpv6 0 0 0 0 0 0 0 1)).length = 8 :=
  (C5_host_encoding "x".data 1 2 3 4 0 0 0 0 0 0 0 1 (by decide) (by decide)
    (by decide) (by decide) (by decide) (by decide) (by decide) (by decide)).2.2.2.1

/-- C6: `revert_host` is total — every input yields `ok`: a bracketed input
(first character `[`, last character `]`) passes through unchanged;
otherwise an input that parses as an IPv4 address passes through
unchanged (the strict parse re-renders to exactly the input); any other
input has its dot-labels reversed. -/
theorem C6_revert_host_total (host : List Char) :
    (∃ r, revertHost host = .ok r) ∧
    (host.head? = some '[' ∧ host.getLast? = some ']' → revertHost host = .ok host) ∧
    (¬(host.head? = some '[' ∧ host.getLast? = some ']') →
      ∀ a b c d, parseIpv4 host = some (a, b, c, d) → revertHost host = .ok host) ∧
    (¬(host.head? = some '[' ∧ host.getLast? = some ']') → parseIpv4 host = none →
      revertHost host = .ok (reverseLabels host)) := by
  refine ⟨revertHost_ok host, fun h => revertHost_bracketed h.1 h.2, ?_,
    fun hbr hp => revertHost_domain hbr hp⟩
  intro hbr a b c d hp
  rw [revertHost_ipv4 hbr hp, renderIpv4_of_parse hp]

/-- C7: the port segment of `convert` (segment 3) is the explicit port in
decimal when one is present, else the scheme's known default when the
table has one, else empty. -/
theorem C7_port_segment {u : ParsedUrl} (hv : ValidUrl u) :
    (splitnChars '/' 5 (convert u))[2]? = some (portStrOf u) ∧
    (∀ p, u.port = some p → portStrOf u = natDigits p) ∧
    (u.port = none → ∀ p, defaultPort u.scheme = some p → portStrOf u = natDigits p) ∧
    (u.port = none → defaultPort u.scheme = none → portStrOf u = []) := by
  refine ⟨?_, ?_, ?_, ?_⟩
  · rw [splitn_convert hv]
    rfl
  · intro p hp
    unfold portStrOf portOrKnownDefault
    rw [hp]
  · intro hp p hd
    unfold portStrOf portOrKnownDefault
    rw [hp, hd]
  · intro hp hd
    unfold portStrOf portOrKnownDefault
    rw [hp, hd]

/-- Port segment at a concrete URL with an explicit non-default port. -/
theorem C7_port_segment_witness :
    (splitnChars '/' 5 (convert (⟨"http".data, some (.Domain "example.org".data),
        some 8080, [], none, "/".data, none, none⟩ : ParsedUrl)))[2]? =
      some (portStrOf (⟨"http".data, some (.Domain "example.org".data),
        some 8080, [], none, "/".data, none, none⟩ : ParsedUrl)) := by
  have hv : ValidUrl (⟨"http".data, some (.Domain "example.org".data),
      some 8080, [], none, "/".data, none, none⟩ : ParsedUrl) :=
    ⟨by decide, by decide, by decide, trivial, by decide, by decide, trivial,
      ⟨⟨by decide, by decide, by decide, by decide, by decide, by decide, by decide,
        by decide, by decide⟩, Or.inr rfl⟩⟩
  exact (C7_port_segment hv).1

/-- C8: the first segment of `convert` is the encoded host, and it is empty
exactly when the source URL has no host. -/
theorem C8_host_segment_empty_iff {u : ParsedUrl} (hv : ValidUrl u) :
    (splitnChars '/' 5 (convert u))[0]? = some (hostStrOf u) ∧
    (hostStrOf u = [] ↔ u.host = none) := by
  have hvc := hv
  obtain ⟨-, -, -, -, -, -, -, hhost⟩ := hvc
  refine ⟨by rw [splitn_convert hv]; rfl, ?_, ?_⟩
  · intro he
    rcases hh : u.host with - | hst
    · rfl
    · rw [hh] at hhost
      obtain ⟨hok, -⟩ := hhost
      unfold hostStrOf at he
      rw [hh] at he
      exact absurd he (convertHost_ne_nil hok)
  · intro hh
    unfold hostStrOf
    rw [hh]

/-- Host-segment emptiness at a concrete host-less URL, `mailto:`. -/
theorem C8_host_segment_empty_iff_witness :
    hostStrOf (⟨"mailto".data, none, none, [], none,
      "example@example.com".data, none, none⟩ : ParsedUrl) = [] ↔
    (⟨"mailto".data, none, none, [], none,
      "example@example.com".data, none, none⟩ : ParsedUrl).host = none := by
  have hv : ValidUrl (⟨"mailto".data, none, none, [], none,
      "example@example.com".data, none, none⟩ : ParsedUrl) :=
    ⟨by decide, by decide, by decide, trivial, trivial, by decide, trivial,
      ⟨rfl, rfl, rfl, by decide, by decide⟩⟩
  exact (C8_host_segment_empty_iff hv).2

/-- C9: the abort branch of `revert` (the `expect` on the final re-parse,
modelled as the `none` result of the parse) is unreachable whenever the
input is the conversion of a URL accepted by the external parser: the
reconstructed string always re-parses. -/
theorem C9_abort_unreachable {s : List Char} {u : ParsedUrl} (hv : ValidUrl u)
    (hs : s = convert u) : revert s ≠ .ok none := by
  subst hs
  rw [revert_eq_of (revertString_five (splitn_convert hv) (revertHost_hostStrOf hv)),
    parseUrl_reconstruction hv]
  intro hcontra
  exact Option.noConfusion (Except.ok.inj hcontra)

/-- No abort at a concrete converted URL, `http://127.0.0.1:8080/index.html`. -/
theorem C9_abort_unreachable_witness :
    revert (convert (⟨"http".data, some (.Ipv4 127 0 0 1), some 8080, [], none,
      "/index.html".data, none, none⟩ : ParsedUrl)) ≠ .ok none := by
  have hv : ValidUrl (⟨"http".data, some (.Ipv4 127 0 0 1), some 8080, [], none,
      "/index.html".data, none, none⟩ : ParsedUrl) :=
    ⟨by decide, by decide, by decide, trivial, by decide, by decide, trivial,
      ⟨⟨by decide, by decide, by decide, by decide⟩, Or.inr rfl⟩⟩
  exact C9_abort_unreachable hv rfl

/-- C10: the host codec round-trips on every domain whose reversed-label
image is neither bracketed nor an IPv4 literal; the IPv4 pass-through in
decoding makes the precondition necessary — the domain `1.0.0.127`
reverses to the IPv4 literal `127.0.0.1`, which the decoder passes
through instead of reversing back. -/
theorem C10_domain_codec {d : List Char}
    (hbr : ¬((reverseLabels d).head? = some '[' ∧ (reverseLabels d).getLast? = some ']'))
    (hip : parseIpv4 (reverseLabels d) = none) :
    revertHost (convertHost (.Domain d)) = .ok d ∧
    revertHost (convertHost (.Domain "1.0.0.127".data)) = .ok "127.0.0.1".data ∧
    "127.0.0.1".data ≠ "1.0.0.127".data := by
  refine ⟨?_, rfl, by decide⟩
  show revertHost (reverseLabels d) = .ok d
  rw [revertHost_domain hbr hip, reverseLabels_reverseLabels]

/-- Host-codec round trip at the concrete domain `com.example`. -/
theorem C10_domain_codec_witness :
    revertHost (convertHost (.Domain "com.example".data)) = .ok "com.example".data :=
  (C10_domain_codec (by decide) (by decide)).1

end Fmh
